import Mathlib

/-!
Shallow embedding of the Fly-Pie menu core: the angular layout engine
(src/server/Menu.js, Menu._updateItemAngles), path addressing
(Menu._updateItemIDs), the show state machine (Menu.show) and the shortcut
reconciler (src/daemon/Daemon.js, Daemon._onMenuConfigsChanged).

JavaScript numbers are modelled as rationals; all arithmetic performed by the
embedded code paths is exact on rationals. JavaScript truthiness of a number
is "defined and nonzero"; truthiness of a string is "defined and nonempty".
The JavaScript remainder operator is only applied to nonnegative dividends in
the embedded code, where it agrees with floor-based mod.
-/

namespace FlyPie

/-- One node of the menu structure: an optional id (item.id), an optional
angle in degrees (item.angle, absent before layout unless fixed by the
caller), and the child list (item.items). -/
structure Item where
  id : Option String
  angle : Option ℚ
  items : List Item
deriving Repr

/-- Truthiness of a JavaScript number: defined and nonzero. -/
def numTruthy : Option ℚ → Bool
  | none => false
  | some a => a != 0

/-- Truthiness of a JavaScript string: defined and nonempty. -/
def strTruthy : Option String → Bool
  | none => false
  | some s => s != ""

/-- The JavaScript remainder a % b for the nonnegative operands used by the
source; written with the mathematical floor so that it is total. -/
def jsMod (a b : ℚ) : ℚ := a - b * (⌊a / b⌋ : ℚ)

namespace Menu

/-- Lines 242-247 of Menu.js: collect the fixed angles together with their
indices, in list order. An angle of 0 is falsy in JavaScript and is hence
not collected. The second argument is the index of the first element. -/
def collectFixed : List (Option ℚ) → ℕ → List (ℚ × ℕ)
  | [], _ => []
  | a :: rest, i =>
    match a with
    | some x => if x = 0 then collectFixed rest (i + 1) else (x, i) :: collectFixed rest (i + 1)
    | none => collectFixed rest (i + 1)

/-- Lines 250-258 of Menu.js: the fixed angles must increase strictly in the
collected order and each must lie in the interval from 0 inclusive to 360
exclusive. -/
def fixedAnglesValid : List ℚ → Bool
  | [] => true
  | [a] => decide (0 ≤ a) && decide (a < 360)
  | a :: b :: rest =>
    decide (0 ≤ a) && decide (a < 360) && decide (a < b) && fixedAnglesValid (b :: rest)

/-- Lines 262-268 of Menu.js: a fixed angle closer than 1 degree to the
parent angle is a collision (plain absolute difference). -/
def parentCollision (p : ℚ) (fas : List ℚ) : Bool :=
  fas.any fun a => decide (|a - p| < 1)

/-- Lines 325-339 of Menu.js: the while loop distributing the items of one
wedge. Walks the index circularly from just after the wedge begin index to
the wedge end index, writing an angle into the list at every visited index;
count and the parent-gap flag evolve exactly as in the source. The loop of
the source terminates because the circular walk reaches the end index; here
a fuel argument of at least the walk length gives the same result. -/
def wedgeLoop (n eIdx : ℕ) (bAng gap pAng : ℚ) :
    ℕ → ℕ → ℕ → Bool → List (Option ℚ) → List (Option ℚ)
  | 0, _, _, _, angles => angles
  | fuel + 1, index, count, pgr, angles =>
    if index = eIdx then angles
    else
      let a0 := bAng + gap * (count : ℚ)
      if pgr && decide (a0 + gap / 2 - pAng > 0) then
        wedgeLoop n eIdx bAng gap pAng fuel ((index + 1) % n) (count + 2) false
          (angles.set index (some (jsMod (bAng + gap * ((count : ℚ) + 1)) 360)))
      else
        wedgeLoop n eIdx bAng gap pAng fuel ((index + 1) % n) (count + 1) pgr
          (angles.set index (some (jsMod a0 360)))

/-- Lines 284-340 of Menu.js: the loop over the wedges between consecutive
fixed angles. The parent angle is a mutable local of the source, so its
updates persist across iterations; it is threaded through and returned.
The fuel argument plays the role of the loop bound fas.length. -/
def wedges (fas : List (ℚ × ℕ)) (n : ℕ) :
    ℕ → ℕ → List (Option ℚ) → Option ℚ → List (Option ℚ) × Option ℚ
  | 0, _, angles, pa => (angles, pa)
  | fuel + 1, i, angles, pa =>
    if h : i < fas.length then
      let b := fas.get ⟨i, h⟩
      let e := fas.get ⟨(i + 1) % fas.length, Nat.mod_lt _ (Nat.zero_lt_of_lt h)⟩
      let eAng := if b.1 ≤ e.1 then e.1 + 360 else e.1
      let baseCount := (((e.2 : ℤ) - (b.2 : ℤ) - 1 + (n : ℤ)) % (n : ℤ)).toNat
      let step : Option ℚ × Bool :=
        match pa with
        | none => (none, false)
        | some p =>
          let p2 := if p < b.1 then p + 360 else p
          (some p2, decide (b.1 < p2) && decide (p2 < eAng))
      let pa2 := step.1
      let inWedge := step.2
      let cnt := if inWedge then baseCount + 1 else baseCount
      let gap := (eAng - b.1) / ((cnt : ℚ) + 1)
      wedges fas n fuel (i + 1)
        (wedgeLoop n e.2 b.1 gap (pa2.getD 0) n ((b.2 + 1) % n) 1 inWedge angles) pa2
    else (angles, pa)

/-- Lines 272-279 of Menu.js: the angle synthesized on the first item when
no item carries a fixed angle; 270 needs a truthy parent angle below 180. -/
def firstAngleOf : Option ℚ → ℚ
  | some p => if p != 0 && decide (p < 180) then 270 else 90
  | none => 90

/-- Lines 242-340 of Menu.js: the one-level angle assignment performed by
Menu._updateItemAngles before it recurses into the children, acting on the
list of angle properties. Returns none when the source returns false. -/
def assignLevelAngles (angles : List (Option ℚ)) (pa : Option ℚ) :
    Option (List (Option ℚ)) :=
  let fixed := collectFixed angles 0
  if !fixedAnglesValid (fixed.map Prod.fst) then none
  else if (match pa with
           | some p => (p != 0) && parentCollision p (fixed.map Prod.fst)
           | none => false) then none
  else
    let start : List (ℚ × ℕ) × List (Option ℚ) :=
      if fixed.isEmpty then
        ([(firstAngleOf pa, 0)], angles.set 0 (some (firstAngleOf pa)))
      else (fixed, angles)
    some (wedges start.1 angles.length start.1.length 0 start.2 pa).1

mutual
/-- Lines 233-352 of Menu.js, Menu._updateItemAngles: assigns the angles of
one level and recurses into the children of every item, passing the resolved
angle of the item plus 180 mod 360 as the parent angle. Returns none exactly
when the source returns false. An item always carries an angle when its
children are processed, so the default value fed to jsMod is never read on a
reachable path. -/
def updateItemAngles : List Item → Option ℚ → Option (List Item)
  | items, pa =>
    if items.length = 0 then some items
    else
      match assignLevelAngles (items.map Item.angle) pa with
      | none => none
      | some as => some (applyAndRecurse items as)
termination_by items _ => (sizeOf items, 1)

/-- Lines 343-349 of Menu.js: writes the freshly assigned angles back into
the items and recurses into every child list. A false result of the
recursive call is discarded by the source (the return statement only leaves
the forEach callback), so a failing child level keeps its original items and
the overall result stays a success. -/
def applyAndRecurse : List Item → List (Option ℚ) → List Item
  | [], _ => []
  | it :: rest, [] => it :: applyAndRecurse rest []
  | ⟨i, _, subs⟩ :: rest, a :: as =>
    let subs' :=
      match updateItemAngles subs (some (jsMod (a.getD 0 + 180) 360)) with
      | some s => s
      | none => subs
    ⟨i, a, subs'⟩ :: applyAndRecurse rest as
termination_by items _ => (sizeOf items, 0)
end

end Menu

/-- Lines 212-217 of Menu.js: the id assigned to the item at index i, given
the id of the parent (JavaScript string concatenation of the parent id, a
slash, and the index; without a truthy parent id just a slash and the
index). -/
def mkID (parentID : Option String) (i : ℕ) : String :=
  if strTruthy parentID then parentID.getD "" ++ "/" ++ toString i else "/" ++ toString i

/-- Lines 209-225 of Menu.js, Menu._updateItemIDs: walks the items with
their index, assigns mkID to every item whose id is not truthy, leaves a
truthy id untouched, and recurses into the children passing the (possibly
fresh) id of the item as parent id. -/
def updateItemIDsAux : List Item → Option String → ℕ → List Item
  | [], _, _ => []
  | ⟨id0, a, subs⟩ :: rest, pid, i =>
    let newID := if strTruthy id0 then id0 else some (mkID pid i)
    ⟨newID, a, updateItemIDsAux subs newID 0⟩ :: updateItemIDsAux rest pid (i + 1)

/-- Menu._updateItemIDs entry point: indices start at 0. -/
def updateItemIDs (items : List Item) (pid : Option String) : List Item :=
  updateItemIDsAux items pid 0

/-- Modelled from the spec: the error codes of common/DBusInterface.js (that
file is not part of src); the spec fixes them as distinct negative integers,
with the nonnegative menu id as the success value, so they are represented
as distinct constructors. -/
inductive ShowResult where
  | menuID (n : ℤ)
  | eAlreadyActive
  | ePropertyMissing
  | eInvalidAngles
  | eUnknownError
deriving DecidableEq, Repr

/-- True for the four error constructors, false for a returned menu id. -/
def ShowResult.isError : ShowResult → Bool
  | .menuID _ => false
  | _ => true

/-- The mutable fields of the Menu class read and written by Menu.show:
this._menuID (null initially), the item list of this._structure (an empty
object initially, hence no items), and this._editMode. -/
structure MenuState where
  menuID : Option ℤ
  structureItems : List Item
  editMode : Bool
deriving Repr

/-- Lines 89-188 of Menu.js, Menu.show. The guard on this._menuID is a
JavaScript truthiness test, so a stored menu id of 0 does not trigger the
eAlreadyActive branch. The structure and the edit mode flag are stored
before the angles are validated. grabOK models the result of the input grab
this._background.show(editMode), an external collaborator. On success the
stored menu id is returned. -/
def Menu.show (st : MenuState) (menuID : ℤ) (items : List Item) (editMode : Bool)
    (grabOK : Bool) : ShowResult × MenuState :=
  if st.menuID.elim false (fun n => n != 0) then (.eAlreadyActive, st)
  else if !(decide (0 < items.length)) then (.ePropertyMissing, st)
  else
    let st1 : MenuState := { st with structureItems := items, editMode := editMode }
    match Menu.updateItemAngles items none with
    | none => (.eInvalidAngles, st1)
    | some items2 =>
      let items3 := updateItemIDs items2 none
      let st2 : MenuState := { st1 with structureItems := items3 }
      if !grabOK then (.eUnknownError, st2)
      else (.menuID menuID, { st2 with menuID := some menuID })

/-- Daemon state relevant to menu requests: the menu and the counter
this._nextID, which starts at 0 (lines 49-50 of Daemon.js). -/
structure DaemonState where
  menu : MenuState
  nextID : ℤ
deriving Repr

/-- The daemon state at construction time: menu id null, empty structure,
next id 0. -/
def DaemonState.initial : DaemonState :=
  ⟨⟨none, [], false⟩, 0⟩

/-- Lines 137-161 of Daemon.js, Daemon._openCustomMenu for an already
parsed structure: calls Menu.show with this._nextID and increments the
counter afterwards (the post-increment happens on every request, successful
or not). -/
def Daemon.openCustomMenu (d : DaemonState) (items : List Item)
    (previewMode grabOK : Bool) : ShowResult × DaemonState :=
  let r := Menu.show d.menu d.nextID items previewMode grabOK
  (r.1, ⟨r.2, d.nextID + 1⟩)

/-- One entry of the menu-configuration list: its name and its data field,
which stores the shortcut string (possibly empty). -/
structure MenuConfig where
  name : String
  data : String

/-- Lines 236-242 of Daemon.js: the Set of required hotkeys, collected from
the configuration entries with a nonempty data field. A JavaScript Set
iterates in insertion order and ignores repeated additions; it is modelled
as a duplicate-free list in insertion order. -/
def newShortcutsSet (menuConfigs : List MenuConfig) : List String :=
  menuConfigs.foldl
    (fun acc c => if c.data = "" then acc else if c.data ∈ acc then acc else acc ++ [c.data])
    []

/-- Lines 244-258 of Daemon.js: walk the currently bound shortcuts; one that
is still required is deleted from the required set, any other is unbound;
afterwards the remaining required shortcuts are bound. The result is the
ordered list of unbind calls and the ordered list of bind calls. -/
def Daemon.reconcile (menuConfigs : List MenuConfig) (bound : List String) :
    List String × List String :=
  bound.foldl
    (fun (acc : List String × List String) sc =>
      if sc ∈ acc.2 then (acc.1, acc.2.erase sc) else (acc.1 ++ [sc], acc.2))
    ([], newShortcutsSet menuConfigs)

/-! Basic facts about jsMod. -/

lemma jsMod_small {a b : ℚ} (h0 : 0 ≤ a) (hb : a < b) : jsMod a b = a := by
  have hbpos : 0 < b := lt_of_le_of_lt h0 hb
  have hf : ⌊a / b⌋ = 0 := by
    rw [Int.floor_eq_zero_iff]
    exact ⟨div_nonneg h0 hbpos.le, (div_lt_one hbpos).mpr hb⟩
  simp [jsMod, hf]

lemma jsMod_shift {a b : ℚ} (hb : b ≤ a) (h2 : a < 2 * b) (hpos : 0 < b) :
    jsMod a b = a - b := by
  have hf : ⌊a / b⌋ = 1 := by
    rw [Int.floor_eq_iff]
    constructor
    · simpa using (one_le_div hpos).mpr hb
    · rw [div_lt_iff₀ hpos]; push_cast; linarith
  rw [jsMod, hf]; push_cast; ring

lemma jsMod_negshift {a b : ℚ} (hb : -b ≤ a) (h2 : a < 0) (hpos : 0 < b) :
    jsMod a b = a + b := by
  have hf : ⌊a / b⌋ = -1 := by
    rw [Int.floor_eq_iff]
    constructor
    · push_cast
      rw [le_div_iff₀ hpos]
      linarith
    · push_cast
      rw [div_lt_iff₀ hpos]
      linarith
  rw [jsMod, hf]; push_cast; ring

namespace Menu

/-! The wedge loops never read the angle list they write into; the analysis
below separates the written index-angle pairs from their application. -/

/-- Apply a list of index-angle writes to an angle list, left to right. -/
def applyWrites (ws : List (ℕ × ℚ)) (angles : List (Option ℚ)) : List (Option ℚ) :=
  ws.foldl (fun l p => l.set p.1 (some p.2)) angles

/-- The index-angle pairs written by wedgeLoop, in order. -/
def wedgeWrites (n eIdx : ℕ) (bAng gap pAng : ℚ) : ℕ → ℕ → ℕ → Bool → List (ℕ × ℚ)
  | 0, _, _, _ => []
  | fuel + 1, index, count, pgr =>
    if index = eIdx then []
    else
      let a0 := bAng + gap * (count : ℚ)
      if pgr && decide (a0 + gap / 2 - pAng > 0) then
        (index, jsMod (bAng + gap * ((count : ℚ) + 1)) 360) ::
          wedgeWrites n eIdx bAng gap pAng fuel ((index + 1) % n) (count + 2) false
      else
        (index, jsMod a0 360) ::
          wedgeWrites n eIdx bAng gap pAng fuel ((index + 1) % n) (count + 1) pgr

lemma applyWrites_nil (angles : List (Option ℚ)) : applyWrites [] angles = angles := rfl

lemma applyWrites_cons (p : ℕ × ℚ) (ws : List (ℕ × ℚ)) (angles : List (Option ℚ)) :
    applyWrites (p :: ws) angles = applyWrites ws (angles.set p.1 (some p.2)) := rfl

lemma applyWrites_append (w1 w2 : List (ℕ × ℚ)) (angles : List (Option ℚ)) :
    applyWrites (w1 ++ w2) angles = applyWrites w2 (applyWrites w1 angles) := by
  simp [applyWrites, List.foldl_append]

lemma applyWrites_length (ws : List (ℕ × ℚ)) (angles : List (Option ℚ)) :
    (applyWrites ws angles).length = angles.length := by
  induction ws generalizing angles with
  | nil => rfl
  | cons p ws ih => rw [applyWrites_cons, ih, List.length_set]

lemma wedgeLoop_eq_applyWrites (n eIdx : ℕ) (bAng gap pAng : ℚ) :
    ∀ (fuel index count : ℕ) (pgr : Bool) (angles : List (Option ℚ)),
      wedgeLoop n eIdx bAng gap pAng fuel index count pgr angles =
        applyWrites (wedgeWrites n eIdx bAng gap pAng fuel index count pgr) angles := by
  intro fuel
  induction fuel with
  | zero => intro _ _ _ _; rfl
  | succ fuel ih =>
    intro index count pgr angles
    rw [wedgeLoop, wedgeWrites]
    by_cases h : index = eIdx
    · simp [h, applyWrites]
    · simp only [h, if_false]
      by_cases h2 : (pgr && decide (bAng + gap * (count : ℚ) + gap / 2 - pAng > 0)) = true
      · simp only [h2, if_true, applyWrites_cons, ih]
      · simp only [Bool.not_eq_true] at h2
        simp only [h2, Bool.false_eq_true, if_false, applyWrites_cons, ih]

/-- The index-angle pairs written by the wedge loop of one level, together
with the final value of the mutable parent angle. -/
def wedgesWrites (fas : List (ℚ × ℕ)) (n : ℕ) : ℕ → ℕ → Option ℚ → List (ℕ × ℚ) × Option ℚ
  | 0, _, pa => ([], pa)
  | fuel + 1, i, pa =>
    if h : i < fas.length then
      let b := fas.get ⟨i, h⟩
      let e := fas.get ⟨(i + 1) % fas.length, Nat.mod_lt _ (Nat.zero_lt_of_lt h)⟩
      let eAng := if b.1 ≤ e.1 then e.1 + 360 else e.1
      let baseCount := (((e.2 : ℤ) - (b.2 : ℤ) - 1 + (n : ℤ)) % (n : ℤ)).toNat
      let step : Option ℚ × Bool :=
        match pa with
        | none => (none, false)
        | some p =>
          let p2 := if p < b.1 then p + 360 else p
          (some p2, decide (b.1 < p2) && decide (p2 < eAng))
      let cnt := if step.2 then baseCount + 1 else baseCount
      let gap := (eAng - b.1) / ((cnt : ℚ) + 1)
      let rest := wedgesWrites fas n fuel (i + 1) step.1
      (wedgeWrites n e.2 b.1 gap (step.1.getD 0) n ((b.2 + 1) % n) 1 step.2 ++ rest.1, rest.2)
    else ([], pa)

lemma wedges_eq_applyWrites (fas : List (ℚ × ℕ)) (n : ℕ) :
    ∀ (fuel i : ℕ) (angles : List (Option ℚ)) (pa : Option ℚ),
      wedges fas n fuel i angles pa =
        (applyWrites (wedgesWrites fas n fuel i pa).1 angles,
          (wedgesWrites fas n fuel i pa).2) := by
  intro fuel
  induction fuel with
  | zero => intro _ _ _; rfl
  | succ fuel ih =>
    intro i angles pa
    rw [wedges, wedgesWrites]
    by_cases h : i < fas.length
    · simp only [h, dif_pos, ih, wedgeLoop_eq_applyWrites, applyWrites_append]
    · simp [h, applyWrites]

/-- The fixed-angle list actually fed to the wedge loop: the collected one,
or the synthesized singleton when nothing was collected. -/
def levelFas (angles : List (Option ℚ)) (pa : Option ℚ) : List (ℚ × ℕ) :=
  if (collectFixed angles 0).isEmpty then [(firstAngleOf pa, 0)] else collectFixed angles 0

/-- All index-angle writes performed by one successful level: the possible
synthesized write at index 0, then the wedge writes. -/
def levelWrites (angles : List (Option ℚ)) (pa : Option ℚ) : List (ℕ × ℚ) :=
  (if (collectFixed angles 0).isEmpty then [(0, firstAngleOf pa)] else []) ++
    (wedgesWrites (levelFas angles pa) angles.length (levelFas angles pa).length 0 pa).1

/-- The two validation guards of one level as a single test. -/
def levelGuardOK (angles : List (Option ℚ)) (pa : Option ℚ) : Bool :=
  fixedAnglesValid ((collectFixed angles 0).map Prod.fst) &&
    !(match pa with
      | some p => (p != 0) && parentCollision p ((collectFixed angles 0).map Prod.fst)
      | none => false)

lemma assignLevelAngles_eq (angles : List (Option ℚ)) (pa : Option ℚ) :
    assignLevelAngles angles pa =
      if levelGuardOK angles pa then some (applyWrites (levelWrites angles pa) angles)
      else none := by
  unfold assignLevelAngles levelGuardOK levelWrites levelFas
  by_cases hv : fixedAnglesValid ((collectFixed angles 0).map Prod.fst)
  · by_cases hc : (match pa with
        | some p => (p != 0) && parentCollision p ((collectFixed angles 0).map Prod.fst)
        | none => false) = true
    · simp [hv, hc]
    · rw [Bool.not_eq_true] at hc
      by_cases he : (collectFixed angles 0).isEmpty
      · simp only [hv, Bool.not_false, hc, Bool.and_true, if_true, he, if_pos,
          Bool.true_and, Bool.not_true]
        rw [wedges_eq_applyWrites]
        simp [applyWrites_cons]
      · simp only [hv, hc, he, Bool.false_eq_true, if_false, if_pos, Bool.true_and,
          Bool.not_false, Bool.and_true]
        rw [wedges_eq_applyWrites]
        simp [applyWrites]
  · simp [hv]

lemma levelWrites_length_eq (angles₁ angles₂ : List (Option ℚ)) (pa : Option ℚ)
    (hc : collectFixed angles₁ 0 = collectFixed angles₂ 0)
    (hl : angles₁.length = angles₂.length) :
    levelWrites angles₁ pa = levelWrites angles₂ pa := by
  rw [levelWrites, levelWrites, levelFas, levelFas, hc, hl]

/-! Facts about collectFixed. -/

lemma collectFixed_set_none_of_zero :
    ∀ (as : List (Option ℚ)) (k i : ℕ), as[k]? = some (some 0) →
      collectFixed (as.set k none) i = collectFixed as i := by
  intro as
  induction as with
  | nil => intro k i h; simp at h
  | cons a rest ih =>
    intro k i h
    cases k with
    | zero =>
      simp only [List.getElem?_cons_zero, Option.some_inj] at h
      subst h
      simp [collectFixed]
    | succ k =>
      simp only [List.getElem?_cons_succ] at h
      have := ih k (i + 1) h
      cases a with
      | none => simpa [collectFixed, List.set] using this
      | some x =>
        by_cases hx : x = 0 <;> simp [collectFixed, List.set, hx, this]

lemma collectFixed_mem :
    ∀ (as : List (Option ℚ)) (i : ℕ) (p : ℚ × ℕ), p ∈ collectFixed as i →
      i ≤ p.2 ∧ p.2 < i + as.length ∧ as[p.2 - i]? = some (some p.1) ∧ p.1 ≠ 0 := by
  intro as
  induction as with
  | nil => intro i p h; simp [collectFixed] at h
  | cons a rest ih =>
    intro i p h
    have step : p ∈ collectFixed rest (i + 1) →
        i ≤ p.2 ∧ p.2 < i + (a :: rest).length ∧ (a :: rest)[p.2 - i]? = some (some p.1) ∧
          p.1 ≠ 0 := by
      intro hm
      obtain ⟨h1, h2, h3, h4⟩ := ih (i + 1) p hm
      refine ⟨by omega, by simp; omega, ?_, h4⟩
      have hk : p.2 - i = (p.2 - (i + 1)) + 1 := by omega
      rw [hk, List.getElem?_cons_succ]
      exact h3
    cases a with
    | none => exact step (by simpa [collectFixed] using h)
    | some x =>
      rw [collectFixed] at h
      by_cases hx : x = 0
      · exact step (by simpa [hx] using h)
      · simp only [hx, if_false] at h
        rcases List.mem_cons.mp h with heq | hm
        · subst heq
          simp [hx]
        · exact step hm

lemma collectFixed_snd_sorted :
    ∀ (as : List (Option ℚ)) (i : ℕ),
      ((collectFixed as i).map Prod.snd).Pairwise (· < ·) := by
  intro as
  induction as with
  | nil => intro i; simp [collectFixed]
  | cons a rest ih =>
    intro i
    have bound : ∀ p ∈ collectFixed rest (i + 1), i < p.2 := by
      intro p hp
      exact lt_of_lt_of_le (by omega) (collectFixed_mem rest (i + 1) p hp).1
    cases a with
    | none => simpa [collectFixed] using ih (i + 1)
    | some x =>
      by_cases hx : x = 0
      · simpa [collectFixed, hx] using ih (i + 1)
      · simp only [collectFixed, hx, if_false, List.map_cons]
        refine List.pairwise_cons.mpr ⟨?_, ih (i + 1)⟩
        intro y hy
        obtain ⟨p, hp, rfl⟩ := List.mem_map.mp hy
        exact bound p hp

/-! Pointwise behavior of applyWrites. -/

lemma applyWrites_getElem?_of_not_mem (ws : List (ℕ × ℚ)) (k : ℕ)
    (h : k ∉ ws.map Prod.fst) :
    ∀ angles : List (Option ℚ), (applyWrites ws angles)[k]? = angles[k]? := by
  induction ws with
  | nil => intro angles; rfl
  | cons p ws ih =>
    intro angles
    simp only [List.map_cons, List.mem_cons] at h
    push_neg at h
    rw [applyWrites_cons, ih h.2, List.getElem?_set_ne (fun hh => h.1 hh.symm)]

lemma applyWrites_getElem?_of_mem (k : ℕ) (v : ℚ) :
    ∀ (ws : List (ℕ × ℚ)) (angles : List (Option ℚ)),
      (ws.map Prod.fst).Nodup → (k, v) ∈ ws → k < angles.length →
      (applyWrites ws angles)[k]? = some (some v) := by
  intro ws
  induction ws with
  | nil => intro angles _ hm _; simp at hm
  | cons p ws ih =>
    intro angles hnd hm hk
    simp only [List.map_cons, List.nodup_cons] at hnd
    rcases List.mem_cons.mp hm with heq | hmem
    · subst heq
      rw [applyWrites_cons]
      have hout : (k : ℕ) ∉ ws.map Prod.fst := by simpa using hnd.1
      rw [applyWrites_getElem?_of_not_mem ws k hout, List.getElem?_set_self (by simpa using hk)]
    · rw [applyWrites_cons]
      exact ih _ hnd.2 hmem (by simpa using hk)

/-- Two angle lists of equal length that agree away from index k are mapped
to equal lists by a write list that writes index k. -/
lemma applyWrites_congr_of_mem (k : ℕ) :
    ∀ (ws : List (ℕ × ℚ)) (l₁ l₂ : List (Option ℚ)),
      k ∈ ws.map Prod.fst → l₁.length = l₂.length →
      (∀ j, j ≠ k → l₁[j]? = l₂[j]?) →
      applyWrites ws l₁ = applyWrites ws l₂ := by
  intro ws
  induction ws with
  | nil => intro l₁ l₂ hm; simp at hm
  | cons p ws ih =>
    intro l₁ l₂ hm hlen hagree
    by_cases hpk : p.1 = k
    · have heq : l₁.set p.1 (some p.2) = l₂.set p.1 (some p.2) := by
        apply List.ext_getElem?
        intro j
        rw [List.getElem?_set, List.getElem?_set, hlen]
        by_cases hij : p.1 = j
        · simp [hij]
        · simp only [hij, if_false]
          exact hagree j (fun hh => hij (by rw [hpk, hh]))
      rw [applyWrites_cons, applyWrites_cons, heq]
    · have hmem : k ∈ ws.map Prod.fst := by
        rw [List.map_cons] at hm
        rcases List.mem_cons.mp hm with hh | hh
        · exact absurd hh.symm hpk
        · exact hh
      rw [applyWrites_cons, applyWrites_cons]
      apply ih _ _ hmem (by simp [hlen])
      intro j hjk
      rw [List.getElem?_set, List.getElem?_set, hlen]
      by_cases hpj : p.1 = j
      · simp [hpj]
      · simp only [hpj, if_false]
        exact hagree j hjk

/-! Facts about the success shape of one level and the write-back step. -/

lemma assignLevelAngles_length {angles : List (Option ℚ)} {pa : Option ℚ}
    {out : List (Option ℚ)} (h : assignLevelAngles angles pa = some out) :
    out.length = angles.length := by
  rw [assignLevelAngles_eq] at h
  by_cases hg : levelGuardOK angles pa
  · rw [if_pos hg, Option.some_inj] at h
    rw [← h, applyWrites_length]
  · rw [if_neg hg] at h
    exact absurd h (by simp)

lemma applyAndRecurse_map_angle :
    ∀ (items : List Item) (as : List (Option ℚ)), items.length = as.length →
      (applyAndRecurse items as).map Item.angle = as := by
  intro items
  induction items with
  | nil =>
    intro as h
    cases as with
    | nil => simp [applyAndRecurse]
    | cons a as => simp at h
  | cons it rest ih =>
    intro as h
    cases as with
    | nil => simp at h
    | cons a as =>
      obtain ⟨i0, a0, subs⟩ := it
      rw [applyAndRecurse]
      simp only [List.map_cons]
      rw [ih as (by simpa using h)]

lemma applyAndRecurse_congr :
    ∀ (items₁ items₂ : List Item) (as : List (Option ℚ)),
      items₁.length = items₂.length → items₁.length = as.length →
      (∀ j : ℕ, (items₁[j]?).map Item.id = (items₂[j]?).map Item.id ∧
        (items₁[j]?).map Item.items = (items₂[j]?).map Item.items) →
      applyAndRecurse items₁ as = applyAndRecurse items₂ as := by
  intro items₁
  induction items₁ with
  | nil =>
    intro items₂ as hl _ _
    cases items₂ with
    | nil => rfl
    | cons _ _ => simp at hl
  | cons it₁ r₁ ih =>
    intro items₂ as hl hla hagree
    cases items₂ with
    | nil => simp at hl
    | cons it₂ r₂ =>
      cases as with
      | nil => simp at hla
      | cons a as =>
        obtain ⟨i1, a1, s1⟩ := it₁
        obtain ⟨i2, a2, s2⟩ := it₂
        have h0 := hagree 0
        simp only [List.getElem?_cons_zero, Option.map_some] at h0
        have hid : i1 = i2 := by
          have := h0.1
          simpa using this
        have hsubs : s1 = s2 := by
          have := h0.2
          simpa using this
        subst hid
        subst hsubs
        rw [applyAndRecurse, applyAndRecurse]
        have htail : applyAndRecurse r₁ as = applyAndRecurse r₂ as := by
          apply ih r₂ as (by simpa using hl) (by simpa using hla)
          intro j
          have := hagree (j + 1)
          simpa using this
        rw [htail]

lemma wedgeWrites_fst_ne (n eIdx : ℕ) (b g p : ℚ) :
    ∀ (fuel idx c : ℕ) (pg : Bool) (q : ℕ × ℚ),
      q ∈ wedgeWrites n eIdx b g p fuel idx c pg → q.1 ≠ eIdx := by
  intro fuel
  induction fuel with
  | zero => intro _ _ _ q hq; simp [wedgeWrites] at hq
  | succ fuel ih =>
    intro idx c pg q hq
    rw [wedgeWrites] at hq
    by_cases h : idx = eIdx
    · simp [h] at hq
    · simp only [h, if_false] at hq
      split at hq <;>
      · rcases List.mem_cons.mp hq with heq | hmem
        · rw [heq]; exact h
        · exact ih _ _ _ q hmem

lemma wedgesWrites_singleton_fst_ne (f : ℚ) (n : ℕ) (pa : Option ℚ)
    (q : ℕ × ℚ) (hq : q ∈ (wedgesWrites [(f, 0)] n 1 0 pa).1) : q.1 ≠ 0 := by
  rw [wedgesWrites] at hq
  simp only [List.length_cons, List.length_nil, Nat.zero_lt_one, dif_pos,
    List.get_cons_zero, wedgesWrites, List.append_nil] at hq
  exact wedgeWrites_fst_ne _ _ _ _ _ _ _ _ _ q hq

lemma collectFixed_nil_of_nofixed :
    ∀ (as : List (Option ℚ)) (i : ℕ), (∀ a ∈ as, a = none ∨ a = some 0) →
      collectFixed as i = [] := by
  intro as
  induction as with
  | nil => intro i _; rfl
  | cons a rest ih =>
    intro i h
    rcases h a (by simp) with ha | ha <;> subst ha <;>
      simp [collectFixed, ih (i + 1) (fun b hb => h b (by simp [hb]))]

lemma fixedAnglesValid_iff (l : List ℚ) :
    fixedAnglesValid l = true ↔ l.Chain' (· < ·) ∧ ∀ a ∈ l, 0 ≤ a ∧ a < 360 := by
  induction l with
  | nil => simp [fixedAnglesValid]
  | cons a rest ih =>
    cases rest with
    | nil => simp [fixedAnglesValid]
    | cons b rest' =>
      rw [fixedAnglesValid]
      simp only [Bool.and_eq_true, decide_eq_true_eq, ih, List.chain'_cons,
        List.forall_mem_cons]
      tauto

end Menu

namespace Menu

/-! The closed form of the single 360-degree wedge produced when no item
carries a fixed angle and the first angle is synthesized at index 0. -/

lemma wedgeWrites_fill (n : ℕ) (g p : ℚ) :
    ∀ (fuel j : ℕ), 1 ≤ j → j ≤ n → n - j ≤ fuel →
      wedgeWrites n 0 90 g p fuel (j % n) j false =
        (List.range' j (n - j)).map (fun t : ℕ => (t, jsMod (90 + g * (t : ℚ)) 360)) := by
  intro fuel
  induction fuel with
  | zero =>
    intro j h1 hn hf
    have h0 : n - j = 0 := Nat.le_zero.mp hf
    rw [wedgeWrites, h0]
    simp
  | succ fuel ih =>
    intro j h1 hn hf
    by_cases hj : j = n
    · subst hj
      rw [wedgeWrites]
      simp [Nat.mod_self]
    · have hjn : j < n := lt_of_le_of_ne hn hj
      have hmod : j % n = j := Nat.mod_eq_of_lt hjn
      have hj0 : ¬(j = 0) := by omega
      rw [wedgeWrites, hmod, if_neg hj0]
      simp only [Bool.false_and, Bool.false_eq_true, if_false]
      rw [ih (j + 1) (by omega) (by omega) (by omega)]
      rw [show n - j = (n - (j + 1)) + 1 by omega, List.range'_succ]
      simp

lemma levelWrites_nofixed (angles : List (Option ℚ))
    (hnil : collectFixed angles 0 = []) (hn : angles.length ≠ 0) :
    levelWrites angles none =
      (0, 90) :: (List.range' 1 (angles.length - 1)).map
        (fun t : ℕ => (t, jsMod (90 + (360 / (angles.length : ℚ)) * (t : ℚ)) 360)) := by
  have hpos : 1 ≤ angles.length := Nat.pos_of_ne_zero hn
  have hbc : (((-1 : ℤ) % (angles.length : ℤ))).toNat = angles.length - 1 := by
    have h1 : (-1 : ℤ) % (angles.length : ℤ) = (-1 + angles.length) % (angles.length : ℤ) := by
      conv_rhs => rw [Int.add_emod, Int.emod_self]
      simp [Int.emod_emod_of_dvd]
    rw [h1, Int.emod_eq_of_lt (by omega) (by omega)]
    omega
  have hcast : ((angles.length - 1 : ℕ) : ℚ) + 1 = (angles.length : ℚ) := by
    push_cast [hpos]
    ring
  have hfill := wedgeWrites_fill angles.length (360 / (angles.length : ℚ)) 0
    angles.length 1 le_rfl hpos (by omega)
  rw [levelWrites, levelFas, hnil]
  simp only [List.isEmpty_nil, if_pos, List.length_cons, List.length_nil]
  rw [wedgesWrites]
  norm_num [wedgesWrites, firstAngleOf, hbc, hcast, hfill]

lemma c3_levelOut (angles : List (Option ℚ))
    (hnil : collectFixed angles 0 = []) (hn : angles.length ≠ 0) :
    applyWrites (levelWrites angles none) angles =
      (List.range angles.length).map
        (fun t : ℕ => some (jsMod (90 + (360 / (angles.length : ℚ)) * (t : ℚ)) 360)) := by
  have hf0 : jsMod (90 + (360 / (angles.length : ℚ)) * ((0 : ℕ) : ℚ)) 360 = 90 := by
    rw [show (90 : ℚ) + (360 / (angles.length : ℚ)) * ((0 : ℕ) : ℚ) = 90 by push_cast; ring]
    rw [jsMod_small] <;> norm_num
  have hnodup : (((0, (90 : ℚ)) :: (List.range' 1 (angles.length - 1)).map
      (fun t : ℕ => (t, jsMod (90 + (360 / (angles.length : ℚ)) * (t : ℚ)) 360))).map
        Prod.fst).Nodup := by
    simp only [List.map_cons, List.map_map]
    have hcomp : (Prod.fst ∘ fun t : ℕ => (t, jsMod (90 + (360 / (angles.length : ℚ)) * (t : ℚ)) 360))
        = id := rfl
    rw [hcomp, List.map_id]
    refine List.Nodup.cons ?_ (List.nodup_range' ..)
    intro hmem
    obtain ⟨i, hi, hEq⟩ := List.mem_range'.mp hmem
    omega
  apply List.ext_getElem?
  intro k
  by_cases hk : k < angles.length
  · rw [levelWrites_nofixed angles hnil hn]
    have hmem : (k, jsMod (90 + (360 / (angles.length : ℚ)) * (k : ℚ)) 360) ∈
        ((0, (90 : ℚ)) :: (List.range' 1 (angles.length - 1)).map
          (fun t : ℕ => (t, jsMod (90 + (360 / (angles.length : ℚ)) * (t : ℚ)) 360))) := by
      rcases Nat.eq_zero_or_pos k with hk0 | hk1
      · subst hk0
        rw [hf0]
        exact List.mem_cons_self _ _
      · refine List.mem_cons_of_mem _ (List.mem_map.mpr ⟨k, ?_, rfl⟩)
        rw [List.mem_range']
        exact ⟨k - 1, by omega, by omega⟩
    rw [applyWrites_getElem?_of_mem k _ _ _ hnodup hmem hk]
    rw [List.getElem?_map, List.getElem?_range hk]
    rfl
  · rw [List.getElem?_eq_none, List.getElem?_eq_none]
    · rw [List.length_map, List.length_range]
      omega
    · rw [applyWrites_length]
      omega

lemma c3_f_branch (n k : ℕ) (hn : 0 < n) (hk : k < n) :
    jsMod (90 + 360 / (n : ℚ) * (k : ℚ)) 360 =
      if 360 / (n : ℚ) * (k : ℚ) < 270 then 90 + 360 / (n : ℚ) * (k : ℚ)
      else 90 + 360 / (n : ℚ) * (k : ℚ) - 360 := by
  have hpos : (0 : ℚ) < (n : ℚ) := by exact_mod_cast hn
  have hkq : (k : ℚ) < (n : ℚ) := by exact_mod_cast hk
  have h0 : (0 : ℚ) ≤ 360 / (n : ℚ) * (k : ℚ) := by positivity
  have h1 : 360 / (n : ℚ) * (k : ℚ) < 360 := by
    rw [div_mul_eq_mul_div, div_lt_iff₀ hpos]
    nlinarith
  by_cases hc : 360 / (n : ℚ) * (k : ℚ) < 270
  · rw [if_pos hc, jsMod_small (by linarith) (by linarith)]
  · rw [not_lt] at hc
    rw [if_neg (not_lt.mpr hc), jsMod_shift (by linarith) (by linarith) (by norm_num)]

lemma c3_f_inj (n : ℕ) (hn : 0 < n) {j k : ℕ} (hj : j < n) (hk : k < n)
    (heq : jsMod (90 + 360 / (n : ℚ) * (j : ℚ)) 360 =
      jsMod (90 + 360 / (n : ℚ) * (k : ℚ)) 360) : j = k := by
  have hpos : (0 : ℚ) < (n : ℚ) := by exact_mod_cast hn
  have hjq : (j : ℚ) < (n : ℚ) := by exact_mod_cast hj
  have hkq : (k : ℚ) < (n : ℚ) := by exact_mod_cast hk
  have hg : (0 : ℚ) < 360 / (n : ℚ) := by positivity
  have hjub : 360 / (n : ℚ) * (j : ℚ) < 360 := by
    rw [div_mul_eq_mul_div, div_lt_iff₀ hpos]
    nlinarith
  have hkub : 360 / (n : ℚ) * (k : ℚ) < 360 := by
    rw [div_mul_eq_mul_div, div_lt_iff₀ hpos]
    nlinarith
  have hjlb : (0 : ℚ) ≤ 360 / (n : ℚ) * (j : ℚ) := by positivity
  have hklb : (0 : ℚ) ≤ 360 / (n : ℚ) * (k : ℚ) := by positivity
  rw [c3_f_branch n j hn hj, c3_f_branch n k hn hk] at heq
  have hcast : (j : ℚ) = (k : ℚ) → j = k := fun h => by exact_mod_cast h
  split_ifs at heq with h1 h2 h2
  · exact hcast (mul_left_cancel₀ (ne_of_gt hg) (by linarith))
  · exact absurd heq (by intro h; linarith)
  · exact absurd heq (by intro h; linarith)
  · exact hcast (mul_left_cancel₀ (ne_of_gt hg) (by linarith))

lemma c3_spacing (n k : ℕ) (hk : k + 1 < n) :
    jsMod (jsMod (90 + 360 / (n : ℚ) * ((k + 1 : ℕ) : ℚ)) 360 -
      jsMod (90 + 360 / (n : ℚ) * (k : ℚ)) 360) 360 = 360 / (n : ℚ) := by
  have hn : 0 < n := by omega
  have hpos : (0 : ℚ) < (n : ℚ) := by exact_mod_cast hn
  have hn2 : (2 : ℚ) ≤ (n : ℚ) := by exact_mod_cast (by omega : 2 ≤ n)
  have hgle : 360 / (n : ℚ) ≤ 180 := by
    rw [div_le_iff₀ hpos]
    nlinarith
  have hgpos : (0 : ℚ) < 360 / (n : ℚ) := by positivity
  have hstep : 360 / (n : ℚ) * ((k + 1 : ℕ) : ℚ) =
      360 / (n : ℚ) * (k : ℚ) + 360 / (n : ℚ) := by
    push_cast
    ring
  rw [c3_f_branch n (k + 1) hn (by omega), c3_f_branch n k hn (by omega)]
  split_ifs with h1 h2 h2
  · rw [show 90 + 360 / (n : ℚ) * ((k + 1 : ℕ) : ℚ) - (90 + 360 / (n : ℚ) * (k : ℚ)) =
      360 / (n : ℚ) by rw [hstep]; ring]
    exact jsMod_small hgpos.le (by linarith)
  · exfalso
    rw [not_lt] at h2
    rw [hstep] at h1
    linarith
  · rw [show 90 + 360 / (n : ℚ) * ((k + 1 : ℕ) : ℚ) - 360 -
      (90 + 360 / (n : ℚ) * (k : ℚ)) = 360 / (n : ℚ) - 360 by rw [hstep]; ring]
    rw [jsMod_negshift (by linarith) (by linarith) (by norm_num)]
    ring
  · rw [show 90 + 360 / (n : ℚ) * ((k + 1 : ℕ) : ℚ) - 360 -
      (90 + 360 / (n : ℚ) * (k : ℚ) - 360) = 360 / (n : ℚ) by rw [hstep]; ring]
    exact jsMod_small hgpos.le (by linarith)

end Menu

/-! Claim C3. -/

/-- Claim C3: on a nonempty list of n items with no truthy fixed angle and
no parent angle, the layout engine succeeds; the resulting angles are
exactly 90 plus k times 360 divided by n, reduced mod 360, for k from 0 to
n minus 1; they are pairwise distinct and consecutive items are evenly
spaced with gap 360 divided by n; for n = 3 the angles are 90, 210, 330. -/
theorem c3_even_distribution (items : List Item)
    (hne : items ≠ [])
    (hnofix : ∀ it ∈ items, it.angle = none ∨ it.angle = some 0) :
    ∃ out, Menu.updateItemAngles items none = some out ∧
      out.map Item.angle = (List.range items.length).map
        (fun t : ℕ => some (jsMod (90 + 360 / (items.length : ℚ) * (t : ℚ)) 360)) ∧
      (out.map Item.angle).Pairwise (· ≠ ·) ∧
      (∀ k : ℕ, k + 1 < items.length →
        ∃ a b : ℚ, (out.map Item.angle)[k]? = some (some a) ∧
          (out.map Item.angle)[k + 1]? = some (some b) ∧
          jsMod (b - a) 360 = 360 / (items.length : ℚ)) ∧
      (items.length = 3 → out.map Item.angle = [some 90, some 210, some 330]) := by
  have hcnil : Menu.collectFixed (items.map Item.angle) 0 = [] :=
    Menu.collectFixed_nil_of_nofixed _ 0 (by
      intro a ha
      obtain ⟨it, hit, rfl⟩ := List.mem_map.mp ha
      exact hnofix it hit)
  have hlen : ¬(items.length = 0) := fun h => hne (List.length_eq_zero.mp h)
  have hguard : Menu.levelGuardOK (items.map Item.angle) none = true := by
    unfold Menu.levelGuardOK
    rw [hcnil]
    simp [Menu.fixedAnglesValid]
  have hlevel : Menu.assignLevelAngles (items.map Item.angle) none =
      some (Menu.applyWrites (Menu.levelWrites (items.map Item.angle) none)
        (items.map Item.angle)) := by
    rw [Menu.assignLevelAngles_eq, if_pos hguard]
  have hout := Menu.c3_levelOut (items.map Item.angle) hcnil (by simpa using hlen)
  simp only [List.length_map] at hout
  have hlenLW : items.length =
      (Menu.applyWrites (Menu.levelWrites (items.map Item.angle) none)
        (items.map Item.angle)).length := by
    rw [Menu.applyWrites_length, List.length_map]
  have hmap := Menu.applyAndRecurse_map_angle items _ hlenLW
  have hnpos : 0 < items.length := Nat.pos_of_ne_zero hlen
  refine ⟨Menu.applyAndRecurse items
    (Menu.applyWrites (Menu.levelWrites (items.map Item.angle) none) (items.map Item.angle)),
    ?_, ?_, ?_, ?_, ?_⟩
  · simp only [Menu.updateItemAngles]
    rw [if_neg hlen, hlevel]
  · rw [hmap, hout]
  · rw [hmap, hout]
    refine (List.pairwise_map).mpr ?_
    refine List.Pairwise.imp_of_mem ?_ (List.pairwise_lt_range items.length)
    intro a b ha hb hab heq
    rw [List.mem_range] at ha hb
    rw [Option.some_inj] at heq
    exact absurd (Menu.c3_f_inj items.length hnpos ha hb heq) (Nat.ne_of_lt hab)
  · intro k hk
    rw [hmap, hout]
    refine ⟨jsMod (90 + 360 / (items.length : ℚ) * (k : ℚ)) 360,
      jsMod (90 + 360 / (items.length : ℚ) * ((k + 1 : ℕ) : ℚ)) 360, ?_, ?_, ?_⟩
    · rw [List.getElem?_map, List.getElem?_range (by omega)]
      rfl
    · rw [List.getElem?_map, List.getElem?_range hk]
      rfl
    · exact Menu.c3_spacing items.length k hk
  · intro h3
    rw [hmap, hout, h3]
    have e0 : jsMod (90 + 360 / ((3 : ℕ) : ℚ) * ((0 : ℕ) : ℚ)) 360 = 90 := by
      norm_num [jsMod]
    have e1 : jsMod (90 + 360 / ((3 : ℕ) : ℚ) * ((1 : ℕ) : ℚ)) 360 = 210 := by
      norm_num [jsMod]
    have e2 : jsMod (90 + 360 / ((3 : ℕ) : ℚ) * ((2 : ℕ) : ℚ)) 360 = 330 := by
      norm_num [jsMod]
    simp only [List.range_succ, List.range_zero, List.nil_append, List.cons_append,
      List.map_cons, List.map_nil, e0, e1, e2]

/-- Witness for C3 at three items with no fixed angles. -/
theorem c3_witness :
    ∃ out, Menu.updateItemAngles
        [⟨none, none, []⟩, ⟨none, none, []⟩, ⟨none, none, []⟩] none = some out ∧
      out.map Item.angle =
        (List.range (3 : ℕ)).map
          (fun t : ℕ => some (jsMod (90 + 360 / ((3 : ℕ) : ℚ) * (t : ℚ)) 360)) ∧
      (out.map Item.angle).Pairwise (· ≠ ·) ∧
      (∀ k : ℕ, k + 1 < (3 : ℕ) →
        ∃ a b : ℚ, (out.map Item.angle)[k]? = some (some a) ∧
          (out.map Item.angle)[k + 1]? = some (some b) ∧
          jsMod (b - a) 360 = 360 / ((3 : ℕ) : ℚ)) ∧
      ((3 : ℕ) = 3 → out.map Item.angle = [some 90, some 210, some 330]) :=
  c3_even_distribution [⟨none, none, []⟩, ⟨none, none, []⟩, ⟨none, none, []⟩]
    (by simp) (by
      intro it hit
      rcases List.mem_cons.mp hit with rfl | hit
      · exact Or.inl rfl
      rcases List.mem_cons.mp hit with rfl | hit
      · exact Or.inl rfl
      rcases List.mem_cons.mp hit with rfl | hit
      · exact Or.inl rfl
      · exact absurd hit (List.not_mem_nil it))

/-! Claim C6. -/

/-- Claim C6: whenever the collected fixed angles, in list order, are not
strictly increasing or contain a value outside the interval from 0
inclusive to 360 exclusive, the layout engine fails (Menu.show maps this
result to the eInvalidAngles error). -/
theorem c6_invalid_fixed_angles_fail (items : List Item) (pa : Option ℚ)
    (h : ¬ ((((Menu.collectFixed (items.map Item.angle) 0).map Prod.fst).Chain' (· < ·)) ∧
      ∀ a ∈ (Menu.collectFixed (items.map Item.angle) 0).map Prod.fst, 0 ≤ a ∧ a < 360)) :
    Menu.updateItemAngles items pa = none := by
  have hvalid : Menu.fixedAnglesValid
      ((Menu.collectFixed (items.map Item.angle) 0).map Prod.fst) = false := by
    rw [← Bool.not_eq_true, Menu.fixedAnglesValid_iff]
    exact h
  have hne : ¬(items.length = 0) := by
    intro hl
    rw [List.length_eq_zero] at hl
    subst hl
    exact h (by simp [Menu.collectFixed])
  have hlevel : Menu.assignLevelAngles (items.map Item.angle) pa = none := by
    rw [Menu.assignLevelAngles_eq]
    have hg : Menu.levelGuardOK (items.map Item.angle) pa = false := by
      unfold Menu.levelGuardOK
      rw [hvalid]
      simp
    rw [hg]
    simp
  simp only [Menu.updateItemAngles]
  rw [if_neg hne, hlevel]

/-- Witness for C6: two fixed angles in decreasing order fail. -/
theorem c6_witness :
    Menu.updateItemAngles [⟨none, some 50, []⟩, ⟨none, some 40, []⟩] none = none := by
  apply c6_invalid_fixed_angles_fail
  intro hcontra
  have h1 := hcontra.1
  simp [Menu.collectFixed, List.chain'_cons] at h1
  norm_num at h1

/-! Claim C4. -/

/-- Claim C4 counterexample: the claim demands failure for any fixed angle
within one degree of the parent angle, including parent angle 0 and
including distances measured across the wraparound; the code succeeds with
parent angle 0 next to fixed angle 0.5 (the truthiness test skips the
collision check for 0) and with parent angle 359.5 next to fixed angle 0.2
(angular distance 0.7 across the wraparound, plain difference 359.3). -/
theorem c4_counterexample :
    (Menu.updateItemAngles [⟨none, some (1/2), []⟩] (some 0)).isSome = true ∧
    (Menu.updateItemAngles [⟨none, some (1/5), []⟩] (some (719/2))).isSome = true := by
  constructor <;>
    norm_num [Menu.updateItemAngles, Menu.assignLevelAngles, Menu.collectFixed,
      Menu.fixedAnglesValid, Menu.parentCollision, Menu.firstAngleOf, Menu.wedges,
      Menu.wedgeLoop, Menu.applyAndRecurse, abs_lt]

/-- Claim C4 amended: when the supplied parent angle is nonzero and some
collected fixed angle is within one degree of it in plain absolute
difference, assign_angles fails; the check is skipped entirely for parent
angle 0 and does not detect collisions across the 0/360 wraparound. -/
theorem c4_amended_parent_collision (items : List Item) (p : ℚ) (hp : p ≠ 0)
    (hcol : ∃ pr ∈ Menu.collectFixed (items.map Item.angle) 0, |pr.1 - p| < 1) :
    Menu.updateItemAngles items (some p) = none := by
  obtain ⟨pr, hpr, hlt⟩ := hcol
  have hne : ¬(items.length = 0) := by
    intro hl
    rw [List.length_eq_zero] at hl
    subst hl
    simp [Menu.collectFixed] at hpr
  have hbne : (p != 0) = true := by simpa [bne_iff_ne] using hp
  have hguard : Menu.levelGuardOK (items.map Item.angle) (some p) = false := by
    unfold Menu.levelGuardOK
    cases hval : Menu.fixedAnglesValid
        ((Menu.collectFixed (items.map Item.angle) 0).map Prod.fst)
    · simp
    · have hcoll : Menu.parentCollision p
          ((Menu.collectFixed (items.map Item.angle) 0).map Prod.fst) = true := by
        rw [Menu.parentCollision, List.any_eq_true]
        exact ⟨pr.1, List.mem_map.mpr ⟨pr, hpr, rfl⟩, by simpa using hlt⟩
      simp [hcoll, hbne]
  have hlevel : Menu.assignLevelAngles (items.map Item.angle) (some p) = none := by
    rw [Menu.assignLevelAngles_eq, hguard]
    simp
  simp only [Menu.updateItemAngles]
  rw [if_neg hne, hlevel]

/-- Witness for the amended C4: fixed angle 90 against parent angle 90.5. -/
theorem c4_witness :
    Menu.updateItemAngles [⟨none, some 90, []⟩] (some (181/2)) = none := by
  apply c4_amended_parent_collision
  · norm_num
  · refine ⟨(90, 0), ?_, by norm_num [abs_lt]⟩
    simp [Menu.collectFixed]

/-! Claim C5. -/

/-- Claim C5 counterexample: the claim demands the synthesized angle 270 for
every supplied parent angle below 180 including 0; with parent angle 0 the
code synthesizes 90 because the truthiness test fails. -/
theorem c5_counterexample :
    Menu.updateItemAngles [⟨none, none, []⟩] (some 0) = some [⟨none, some 90, []⟩] := by
  norm_num [Menu.updateItemAngles, Menu.assignLevelAngles, Menu.collectFixed,
    Menu.fixedAnglesValid, Menu.parentCollision, Menu.firstAngleOf, Menu.wedges,
    Menu.wedgeLoop, Menu.applyAndRecurse]

/-- Claim C5 amended: on a nonempty list with no truthy fixed angle the
engine succeeds and the first item receives the synthesized angle, which is
270 exactly when a parent angle is given that is nonzero and below 180, and
90 in every other case, including parent angle 0. -/
theorem c5_amended_first_angle (items : List Item) (pa : Option ℚ)
    (hne : items ≠ [])
    (hnofix : ∀ it ∈ items, it.angle = none ∨ it.angle = some 0) :
    ∃ out, Menu.updateItemAngles items pa = some out ∧
      out.head?.map Item.angle = some (some (Menu.firstAngleOf pa)) ∧
      (Menu.firstAngleOf pa = 270 ↔ ∃ p, pa = some p ∧ p ≠ 0 ∧ p < 180) := by
  have hcnil : Menu.collectFixed (items.map Item.angle) 0 = [] :=
    Menu.collectFixed_nil_of_nofixed _ 0 (by
      intro a ha
      obtain ⟨it, hit, rfl⟩ := List.mem_map.mp ha
      exact hnofix it hit)
  have hlen : ¬(items.length = 0) := fun h => hne (List.length_eq_zero.mp h)
  have hguard : Menu.levelGuardOK (items.map Item.angle) pa = true := by
    unfold Menu.levelGuardOK
    rw [hcnil]
    cases pa <;> simp [Menu.fixedAnglesValid, Menu.parentCollision]
  have hlevel : Menu.assignLevelAngles (items.map Item.angle) pa =
      some (Menu.applyWrites (Menu.levelWrites (items.map Item.angle) pa)
        (items.map Item.angle)) := by
    rw [Menu.assignLevelAngles_eq, if_pos hguard]
  refine ⟨Menu.applyAndRecurse items
    (Menu.applyWrites (Menu.levelWrites (items.map Item.angle) pa) (items.map Item.angle)),
    ?_, ?_, ?_⟩
  · simp only [Menu.updateItemAngles]
    rw [if_neg hlen, hlevel]
  · have hlenLW : items.length =
        (Menu.applyWrites (Menu.levelWrites (items.map Item.angle) pa)
          (items.map Item.angle)).length := by
      rw [Menu.applyWrites_length, List.length_map]
    have hmap := Menu.applyAndRecurse_map_angle items _ hlenLW
    have hhead : (Menu.applyWrites (Menu.levelWrites (items.map Item.angle) pa)
        (items.map Item.angle))[0]? = some (some (Menu.firstAngleOf pa)) := by
      rw [Menu.levelWrites, Menu.levelFas, hcnil]
      simp only [List.isEmpty_nil, if_pos]
      rw [Menu.applyWrites_append, Menu.applyWrites_cons, Menu.applyWrites_nil]
      rw [Menu.applyWrites_getElem?_of_not_mem]
      · rw [List.getElem?_set_self]
        rw [List.length_map]
        exact Nat.pos_of_ne_zero hlen
      · intro hmem
        obtain ⟨q, hq, hq0⟩ := List.mem_map.mp hmem
        exact Menu.wedgesWrites_singleton_fst_ne _ _ _ q (by simpa using hq) hq0
    rw [← hmap] at hhead
    rw [List.getElem?_map] at hhead
    rw [← List.head?_eq_getElem?] at hhead
    rw [← Option.map_eq_map]
    exact hhead
  · cases pa with
    | none =>
      simp only [Menu.firstAngleOf]
      constructor
      · intro hcontra
        norm_num at hcontra
      · rintro ⟨p, hp, _, _⟩
        exact absurd hp (by simp)
    | some p =>
      simp only [Menu.firstAngleOf]
      by_cases hp : p = 0
      · subst hp
        norm_num
      · have hbne : (p != 0) = true := by simpa [bne_iff_ne] using hp
        by_cases hlt : p < 180
        · rw [hbne]
          simp only [Bool.true_and, decide_eq_true_eq, if_pos hlt]
          simp only [true_iff]
          exact ⟨p, rfl, hp, hlt⟩
        · rw [hbne]
          simp only [Bool.true_and, decide_eq_true_eq, if_neg hlt]
          constructor
          · intro hcontra
            norm_num at hcontra
          · rintro ⟨q, hq, _, hq2⟩
            rw [Option.some_inj] at hq
            subst hq
            exact absurd hq2 hlt

/-- Witness for the amended C5: one item without angle, parent angle 100,
first angle 270. -/
theorem c5_witness :
    ∃ out, Menu.updateItemAngles [⟨none, none, []⟩] (some 100) = some out ∧
      out.head?.map Item.angle = some (some (Menu.firstAngleOf (some 100))) ∧
      (Menu.firstAngleOf (some 100) = 270 ↔
        ∃ p, (some (100 : ℚ)) = some p ∧ p ≠ 0 ∧ p < 180) :=
  c5_amended_first_angle _ _ (by simp) (by
    intro it hit
    rw [List.mem_singleton] at hit
    subst hit
    exact Or.inl rfl)

/-! Claim C9: path addressing. -/

lemma mkID_ne_empty (pid : Option String) (i : ℕ) : mkID pid i ≠ "" := by
  intro h
  have hslash : ("/" : String).length = 1 := by decide
  have hemp : ("" : String).length = 0 := by decide
  rw [mkID] at h
  split_ifs at h <;>
  · apply_fun String.length at h
    simp only [String.length_append, hslash, hemp] at h
    omega

lemma strTruthy_updateItemIDsAux :
    ∀ (items : List Item) (pid : Option String) (i : ℕ) (it : Item),
      it ∈ updateItemIDsAux items pid i → strTruthy it.id = true := by
  intro items
  induction items with
  | nil => intro pid i it h; simp [updateItemIDsAux] at h
  | cons hd rest ih =>
    intro pid i it h
    obtain ⟨id0, a, subs⟩ := hd
    rw [updateItemIDsAux] at h
    rcases List.mem_cons.mp h with rfl | hmem
    · cases hid : strTruthy id0
      · have := mkID_ne_empty pid i
        simp [hid, strTruthy, this]
      · simp [hid]
    · exact ih pid (i + 1) it hmem

lemma updateItemIDsAux_idem :
    ∀ (items : List Item) (pid : Option String) (i : ℕ),
      updateItemIDsAux (updateItemIDsAux items pid i) pid i =
        updateItemIDsAux items pid i := by
  intro items pid i
  induction items, pid, i using updateItemIDsAux.induct with
  | case1 pid i => simp [updateItemIDsAux]
  | case2 id0 a subs rest pid i nid ihsubs ihrest =>
    have htr : strTruthy (if strTruthy id0 = true then id0 else some (mkID pid i)) = true := by
      cases hid : strTruthy id0
      · have := mkID_ne_empty pid i
        simp [hid, strTruthy, this]
      · simp [hid]
    simp only [updateItemIDsAux]
    rw [htr]
    simp only [if_pos]
    congr 1
    congr 1

lemma updateItemIDsAux_getElem? :
    ∀ (items : List Item) (pid : Option String) (i k : ℕ) (it : Item),
      items[k]? = some it →
      ∃ subs', (updateItemIDsAux items pid i)[k]? =
        some ⟨if strTruthy it.id = true then it.id else some (mkID pid (i + k)),
          it.angle, subs'⟩ := by
  intro items
  induction items with
  | nil => intro pid i k it h; simp at h
  | cons hd rest ih =>
    intro pid i k it h
    obtain ⟨id0, a, subs⟩ := hd
    cases k with
    | zero =>
      rw [List.getElem?_cons_zero, Option.some_inj] at h
      subst h
      refine ⟨updateItemIDsAux subs
        (if strTruthy id0 = true then id0 else some (mkID pid i)) 0, ?_⟩
      rw [updateItemIDsAux, List.getElem?_cons_zero]
      simp
    | succ k =>
      rw [List.getElem?_cons_succ] at h
      obtain ⟨subs', hs⟩ := ih pid (i + 1) k it h
      refine ⟨subs', ?_⟩
      rw [updateItemIDsAux, List.getElem?_cons_succ, hs,
        show i + 1 + k = i + (k + 1) by omega]

/-- Claim C9: assign_ids is idempotent. The function gives every node
without a truthy id the path of its parent followed by a slash and its
index, never modifies a truthy id, never changes an angle, and applying it
twice with the same parent id changes nothing, so a second run yields
identical path strings. -/
theorem c9_assign_ids_idempotent (items : List Item) (pid : Option String) :
    updateItemIDs (updateItemIDs items pid) pid = updateItemIDs items pid ∧
    ∀ (k : ℕ) (it : Item), items[k]? = some it →
      ∃ it', (updateItemIDs items pid)[k]? = some it' ∧
        it'.angle = it.angle ∧
        (strTruthy it.id = true → it'.id = it.id) ∧
        (strTruthy it.id = false → it'.id = some (mkID pid k)) := by
  constructor
  · exact updateItemIDsAux_idem items pid 0
  · intro k it h
    obtain ⟨subs', hs⟩ := updateItemIDsAux_getElem? items pid 0 k it h
    rw [Nat.zero_add] at hs
    refine ⟨_, hs, rfl, ?_, ?_⟩
    · intro htr
      simp [htr]
    · intro hfa
      simp [hfa]

/-- Witness for C9 on a small two-item tree with one caller-supplied id. -/
theorem c9_witness :
    updateItemIDs (updateItemIDs
        [⟨some "x", none, []⟩, ⟨none, none, [⟨none, none, []⟩]⟩] none) none =
      updateItemIDs [⟨some "x", none, []⟩, ⟨none, none, [⟨none, none, []⟩]⟩] none ∧
    ∃ it', (updateItemIDs
        [⟨some "x", none, []⟩, ⟨none, none, [⟨none, none, []⟩]⟩] none)[1]? = some it' ∧
      it'.angle = none ∧
      (strTruthy (none : Option String) = true → it'.id = none) ∧
      (strTruthy (none : Option String) = false → it'.id = some (mkID none 1)) := by
  refine ⟨(c9_assign_ids_idempotent
    [⟨some "x", none, []⟩, ⟨none, none, [⟨none, none, []⟩]⟩] none).1, ?_⟩
  obtain ⟨it', h1, h2, h3, h4⟩ := (c9_assign_ids_idempotent
    [⟨some "x", none, []⟩, ⟨none, none, [⟨none, none, []⟩]⟩] none).2 1
    ⟨none, none, [⟨none, none, []⟩]⟩ rfl
  exact ⟨it', h1, h2, h3, h4⟩

/-! Claim C8: the shortcut reconciler. -/

lemma newShortcutsSet_go (menuConfigs : List MenuConfig) :
    ∀ acc : List String, acc.Nodup →
      (menuConfigs.foldl
        (fun acc c => if c.data = "" then acc
          else if c.data ∈ acc then acc else acc ++ [c.data]) acc).Nodup ∧
      ∀ s, s ∈ menuConfigs.foldl
          (fun acc c => if c.data = "" then acc
            else if c.data ∈ acc then acc else acc ++ [c.data]) acc ↔
        s ∈ acc ∨ (s ≠ "" ∧ s ∈ menuConfigs.map MenuConfig.data) := by
  induction menuConfigs with
  | nil =>
    intro acc hacc
    refine ⟨hacc, ?_⟩
    intro s
    simp
  | cons c rest ih =>
    intro acc hacc
    rw [List.foldl_cons]
    by_cases hce : c.data = ""
    · rw [if_pos hce]
      obtain ⟨h1, h2⟩ := ih acc hacc
      refine ⟨h1, ?_⟩
      intro s
      rw [h2]
      constructor
      · rintro (hs | ⟨hs1, hs2⟩)
        · exact Or.inl hs
        · exact Or.inr ⟨hs1, by simp [hs2]⟩
      · rintro (hs | ⟨hs1, hs2⟩)
        · exact Or.inl hs
        · simp only [List.map_cons, List.mem_cons] at hs2
          rcases hs2 with rfl | hs2
          · exact absurd hce hs1
          · exact Or.inr ⟨hs1, hs2⟩
    · rw [if_neg hce]
      by_cases hcm : c.data ∈ acc
      · rw [if_pos hcm]
        obtain ⟨h1, h2⟩ := ih acc hacc
        refine ⟨h1, ?_⟩
        intro s
        rw [h2]
        constructor
        · rintro (hs | ⟨hs1, hs2⟩)
          · exact Or.inl hs
          · exact Or.inr ⟨hs1, by simp [hs2]⟩
        · rintro (hs | ⟨hs1, hs2⟩)
          · exact Or.inl hs
          · simp only [List.map_cons, List.mem_cons] at hs2
            rcases hs2 with rfl | hs2
            · exact Or.inl hcm
            · exact Or.inr ⟨hs1, hs2⟩
      · rw [if_neg hcm]
        obtain ⟨h1, h2⟩ := ih (acc ++ [c.data]) (by
          rw [List.nodup_append]
          exact ⟨hacc, List.nodup_singleton _, by simpa using hcm⟩)
        refine ⟨h1, ?_⟩
        intro s
        rw [h2]
        constructor
        · rintro (hs | ⟨hs1, hs2⟩)
          · rcases List.mem_append.mp hs with hs | hs
            · exact Or.inl hs
            · rw [List.mem_singleton] at hs
              subst hs
              exact Or.inr ⟨hce, by simp⟩
          · exact Or.inr ⟨hs1, by simp [hs2]⟩
        · rintro (hs | ⟨hs1, hs2⟩)
          · exact Or.inl (List.mem_append.mpr (Or.inl hs))
          · simp only [List.map_cons, List.mem_cons] at hs2
            rcases hs2 with rfl | hs2
            · exact Or.inl (List.mem_append.mpr (Or.inr (by simp)))
            · exact Or.inr ⟨hs1, hs2⟩

lemma newShortcutsSet_spec (menuConfigs : List MenuConfig) :
    (newShortcutsSet menuConfigs).Nodup ∧
    ∀ s, s ∈ newShortcutsSet menuConfigs ↔
      s ≠ "" ∧ s ∈ menuConfigs.map MenuConfig.data := by
  obtain ⟨h1, h2⟩ := newShortcutsSet_go menuConfigs [] (List.nodup_nil)
  refine ⟨h1, ?_⟩
  intro s
  rw [newShortcutsSet, h2]
  simp

lemma reconcile_go :
    ∀ (bound processed acc : List String) (S0 : List String),
      S0.Nodup → bound.Nodup → (∀ s ∈ bound, s ∉ processed) →
      bound.foldl
        (fun (acc : List String × List String) sc =>
          if sc ∈ acc.2 then (acc.1, acc.2.erase sc) else (acc.1 ++ [sc], acc.2))
        (acc, S0.filter (fun x => decide (x ∉ processed))) =
      (acc ++ bound.filter (fun s => decide (s ∉ S0)),
        S0.filter (fun x => decide (x ∉ processed ∧ x ∉ bound))) := by
  intro bound
  induction bound with
  | nil =>
    intro processed acc S0 hS0 _ _
    simp only [List.foldl_nil, List.filter_nil, List.append_nil]
    congr 1
    apply List.filter_congr
    intro x _
    simp
  | cons sc rest ih =>
    intro processed acc S0 hS0 hnd hout
    have hscp : sc ∉ processed := hout sc (by simp)
    have hndr : rest.Nodup := (List.nodup_cons.mp hnd).2
    have hscr : sc ∉ rest := (List.nodup_cons.mp hnd).1
    rw [List.foldl_cons]
    by_cases hm : sc ∈ S0.filter (fun x => decide (x ∉ processed))
    · have hsc0 : sc ∈ S0 := (List.mem_filter.mp hm).1
      rw [if_pos hm]
      have hfn : (S0.filter (fun x => decide (x ∉ processed))).Nodup :=
        hS0.filter _
      have herase : (S0.filter (fun x => decide (x ∉ processed))).erase sc =
          S0.filter (fun x => decide (x ∉ processed ++ [sc])) := by
        rw [List.Nodup.erase_eq_filter hfn, List.filter_filter]
        apply List.filter_congr
        intro x _
        simp only [List.mem_append, List.mem_singleton, bne_iff_ne]
        by_cases hx : x = sc
        · simp [hx]
        · simp [hx]
      rw [herase]
      rw [ih (processed ++ [sc]) acc S0 hS0 hndr (by
        intro s hs
        rw [List.mem_append, List.mem_singleton]
        push_neg
        exact ⟨hout s (by simp [hs]), fun hcon => hscr (hcon ▸ hs)⟩)]
      congr 1
      · congr 1
        rw [List.filter_cons]
        simp only [hsc0, decide_not]
        simp
      · apply List.filter_congr
        intro x _
        simp only [List.mem_append, List.mem_singleton, List.mem_cons]
        by_cases hx : x = sc <;> simp [hx]
    · have hsc0 : sc ∉ S0 := by
        intro hcon
        exact hm (List.mem_filter.mpr ⟨hcon, by simpa using hscp⟩)
      rw [if_neg hm]
      rw [ih processed (acc ++ [sc]) S0 hS0 hndr (fun s hs => hout s (by simp [hs]))]
      congr 1
      · rw [List.filter_cons]
        simp only [hsc0, decide_not]
        simp
      · apply List.filter_congr
        intro x hx
        simp only [List.mem_cons]
        have hxsc : x ≠ sc := fun hcon => hsc0 (hcon ▸ hx)
        simp [hxsc]

/-- Claim C8: on a configuration change the reconciler unbinds exactly the
bound shortcuts that are no longer desired, binds exactly the desired
shortcuts that are not yet bound, and issues no call at all for a shortcut
in both sets; the desired set is exactly the set of distinct nonempty
shortcut strings of the configuration. -/
theorem c8_reconciler_diff (menuConfigs : List MenuConfig) (bound : List String)
    (hnd : bound.Nodup) :
    (Daemon.reconcile menuConfigs bound).1 =
      bound.filter (fun s => decide (s ∉ newShortcutsSet menuConfigs)) ∧
    (Daemon.reconcile menuConfigs bound).2 =
      (newShortcutsSet menuConfigs).filter (fun s => decide (s ∉ bound)) ∧
    (∀ s, s ∈ bound → s ∈ newShortcutsSet menuConfigs →
      s ∉ (Daemon.reconcile menuConfigs bound).1 ∧
      s ∉ (Daemon.reconcile menuConfigs bound).2) ∧
    (newShortcutsSet menuConfigs).Nodup ∧
    (∀ s, s ∈ newShortcutsSet menuConfigs ↔
      s ≠ "" ∧ s ∈ menuConfigs.map MenuConfig.data) := by
  obtain ⟨hset, hmem⟩ := newShortcutsSet_spec menuConfigs
  have hgo := reconcile_go bound [] [] (newShortcutsSet menuConfigs) hset hnd
    (by intro s _; exact List.not_mem_nil s)
  have hfilter0 : (newShortcutsSet menuConfigs).filter
      (fun x => decide (x ∉ ([] : List String))) = newShortcutsSet menuConfigs := by
    apply List.filter_eq_self.mpr
    intro a _
    simp
  rw [hfilter0] at hgo
  have hrec : Daemon.reconcile menuConfigs bound =
      (bound.filter (fun s => decide (s ∉ newShortcutsSet menuConfigs)),
        (newShortcutsSet menuConfigs).filter
          (fun x => decide (x ∉ ([] : List String) ∧ x ∉ bound))) := by
    rw [Daemon.reconcile, hgo]
    simp
  have hfilter1 : (newShortcutsSet menuConfigs).filter
      (fun x => decide (x ∉ ([] : List String) ∧ x ∉ bound)) =
      (newShortcutsSet menuConfigs).filter (fun x => decide (x ∉ bound)) := by
    apply List.filter_congr
    intro x _
    simp
  rw [hfilter1] at hrec
  refine ⟨by rw [hrec], by rw [hrec], ?_, hset, hmem⟩
  intro s hs1 hs2
  rw [hrec]
  constructor
  · intro hcon
    have := (List.mem_filter.mp hcon).2
    simp at this
    exact this hs2
  · intro hcon
    have := (List.mem_filter.mp hcon).2
    simp at this
    exact this hs1

/-- Witness for C8: bound set A, B with desired set B, C unbinds exactly A
and binds exactly C. -/
theorem c8_witness :
    (["A", "B"] : List String).Nodup ∧
    Daemon.reconcile [⟨"menu1", "B"⟩, ⟨"menu2", "C"⟩] ["A", "B"] = (["A"], ["C"]) ∧
    (Daemon.reconcile [⟨"menu1", "B"⟩, ⟨"menu2", "C"⟩] ["A", "B"]).2 =
      (newShortcutsSet [⟨"menu1", "B"⟩, ⟨"menu2", "C"⟩]).filter
        (fun s => decide (s ∉ (["A", "B"] : List String))) :=
  ⟨by decide, by decide,
    (c8_reconciler_diff [⟨"menu1", "B"⟩, ⟨"menu2", "C"⟩] ["A", "B"] (by decide)).2.1⟩

/-! Claims C1, C2 and C7: the show state machine. -/

/-- Claim C1 at its failing input: the daemon allocates id 0 for its first
request (this._nextID starts at 0); with that session open, a second show
call does not return eAlreadyActive, because the guard is a truthiness test
on this._menuID and 0 is falsy; the second request opens and replaces the
stored structure and session id of the active session. -/
theorem c1_id_zero_guard_fails :
    (Daemon.openCustomMenu DaemonState.initial [⟨none, none, []⟩] false true).1 =
      ShowResult.menuID 0 ∧
    (Daemon.openCustomMenu DaemonState.initial
      [⟨none, none, []⟩] false true).2.menu.menuID = some 0 ∧
    (Daemon.openCustomMenu
        (Daemon.openCustomMenu DaemonState.initial [⟨none, none, []⟩] false true).2
        [⟨none, some 33, []⟩] false true).1 ≠ ShowResult.eAlreadyActive ∧
    (Daemon.openCustomMenu
        (Daemon.openCustomMenu DaemonState.initial [⟨none, none, []⟩] false true).2
        [⟨none, some 33, []⟩] false true).1 = ShowResult.menuID 1 ∧
    (Daemon.openCustomMenu
        (Daemon.openCustomMenu DaemonState.initial [⟨none, none, []⟩] false true).2
        [⟨none, some 33, []⟩] false true).2.menu.structureItems.map Item.angle =
      [some 33] ∧
    (Daemon.openCustomMenu DaemonState.initial
      [⟨none, none, []⟩] false true).2.menu.structureItems.map Item.angle = [some 90] := by
  norm_num [Daemon.openCustomMenu, DaemonState.initial, Menu.show,
    Menu.updateItemAngles, Menu.assignLevelAngles, Menu.collectFixed,
    Menu.fixedAnglesValid, Menu.parentCollision, Menu.firstAngleOf, Menu.wedges,
    Menu.wedgeLoop, Menu.applyAndRecurse, updateItemIDs, updateItemIDsAux, mkID,
    strTruthy]
  decide

set_option maxRecDepth 8000 in
/-- Claim C2 at its failing input: the child level with fixed angle 400
fails on its own (400 is outside the valid interval), but the recursion of
_updateItemAngles discards the failure because the return statement only
leaves the forEach callback, so the full update succeeds and Menu.show
returns the session id instead of eInvalidAngles. -/
theorem c2_child_failure_swallowed :
    Menu.updateItemAngles [⟨none, some 400, []⟩] (some 270) = none ∧
    (∃ out, Menu.updateItemAngles [⟨none, none, [⟨none, some 400, []⟩]⟩] none =
      some out ∧ out.map Item.angle = [some 90]) ∧
    (Menu.show ⟨none, [], false⟩ 7 [⟨none, none, [⟨none, some 400, []⟩]⟩] false true).1 =
      ShowResult.menuID 7 := by
  refine ⟨?_, ?_, ?_⟩ <;>
    norm_num [Menu.show, Menu.updateItemAngles, Menu.assignLevelAngles,
      Menu.collectFixed, Menu.fixedAnglesValid, Menu.parentCollision,
      Menu.firstAngleOf, Menu.wedges, Menu.wedgeLoop, Menu.applyAndRecurse, jsMod,
      updateItemIDs, updateItemIDsAux, mkID, strTruthy]

/-- Claim C7 counterexample: a show request failing with eInvalidAngles has
already stored the new structure and edit flag, so the previously stored
tree of the idle menu is replaced, contradicting the claim that session
state is unaffected by request-level errors. -/
theorem c7_counterexample :
    (Menu.show ⟨none, [⟨none, some 33, []⟩], true⟩ 5 [⟨none, some 400, []⟩]
      false true).1 = ShowResult.eInvalidAngles ∧
    (Menu.show ⟨none, [⟨none, some 33, []⟩], true⟩ 5 [⟨none, some 400, []⟩]
      false true).2.structureItems.map Item.angle = [some 400] ∧
    (⟨none, [⟨none, some 33, []⟩], true⟩ : MenuState).structureItems.map Item.angle =
      [some 33] ∧
    (Menu.show ⟨none, [⟨none, some 33, []⟩], true⟩ 5 [⟨none, some 400, []⟩]
      false true).2.editMode = false := by
  norm_num [Menu.show, Menu.updateItemAngles, Menu.assignLevelAngles,
    Menu.collectFixed, Menu.fixedAnglesValid, Menu.parentCollision,
    Menu.firstAngleOf, Menu.wedges, Menu.wedgeLoop, Menu.applyAndRecurse]

/-- Claim C7 amended: every request-level error leaves this._menuID, and
hence the Idle or Active discrimination, unchanged; for eAlreadyActive and
ePropertyMissing the whole menu state is untouched, while for
eInvalidAngles and eUnknownError the stored structure and the edit flag
have already been replaced by the failing request. -/
theorem c7_amended_error_state (st : MenuState) (menuID : ℤ) (items : List Item)
    (editMode grabOK : Bool)
    (herr : (Menu.show st menuID items editMode grabOK).1.isError = true) :
    (Menu.show st menuID items editMode grabOK).2.menuID = st.menuID ∧
    ((Menu.show st menuID items editMode grabOK).1 = ShowResult.eAlreadyActive ∨
      (Menu.show st menuID items editMode grabOK).1 = ShowResult.ePropertyMissing →
      (Menu.show st menuID items editMode grabOK).2 = st) := by
  unfold Menu.show at herr ⊢
  by_cases h1 : st.menuID.elim false (fun n => n != 0) = true
  · simp [h1]
  · rw [Bool.not_eq_true] at h1
    simp only [h1, Bool.false_eq_true, if_false] at herr ⊢
    by_cases h2 : items.length = 0
    · simp [h2]
    · have hpos := Nat.pos_of_ne_zero h2
      cases hua : Menu.updateItemAngles items none with
      | none => simp [hpos, hua]
      | some its2 =>
        cases grabOK with
        | false => simp [hpos, hua]
        | true => simp [hpos, hua, ShowResult.isError] at herr

/-- Witness for the amended C7 at a concrete failing request. -/
theorem c7_witness :
    (Menu.show ⟨none, [], false⟩ 5 [] false true).2.menuID =
      (⟨none, [], false⟩ : MenuState).menuID ∧
    ((Menu.show ⟨none, [], false⟩ 5 [] false true).1 = ShowResult.eAlreadyActive ∨
      (Menu.show ⟨none, [], false⟩ 5 [] false true).1 = ShowResult.ePropertyMissing →
      (Menu.show ⟨none, [], false⟩ 5 [] false true).2 = ⟨none, [], false⟩) :=
  c7_amended_error_state ⟨none, [], false⟩ 5 [] false true
    (by simp [Menu.show, ShowResult.isError])

/-! Claim C10: an angle property equal to 0 is treated as no fixed angle.
The key fact is that every non-fixed index is written by some wedge walk;
the circular distance bookkeeping below proves it. -/

namespace Menu

lemma distStep (n s x : ℕ) (hs : s < n) (hx : x < n) (hne : x ≠ s) :
    (x + n - (s + 1) % n) % n = (x + n - s) % n - 1 := by
  by_cases hsn : s + 1 = n
  · have h1 : (s + 1) % n = 0 := by rw [hsn, Nat.mod_self]
    have hxlt : x < n - 1 := by omega
    have hl : (x + n - (s + 1) % n) % n = x := by
      rw [h1, Nat.sub_zero, Nat.add_mod_right, Nat.mod_eq_of_lt hx]
    have hr : (x + n - s) % n = x + 1 := by
      rw [show x + n - s = x + 1 by omega, Nat.mod_eq_of_lt (by omega)]
    rw [hl, hr]
    omega
  · have hs1 : (s + 1) % n = s + 1 := Nat.mod_eq_of_lt (by omega)
    rw [hs1]
    by_cases hxs : s < x
    · have hl2 : (x + n - (s + 1)) % n = x - s - 1 := by
        rw [show x + n - (s + 1) = n + (x - s - 1) by omega, Nat.add_mod_left,
          Nat.mod_eq_of_lt (by omega)]
      have hr : (x + n - s) % n = x - s := by
        rw [show x + n - s = n + (x - s) by omega, Nat.add_mod_left,
          Nat.mod_eq_of_lt (by omega)]
      rw [hl2, hr]
    · have hxlt : x < s := by omega
      have hl : (x + n - (s + 1)) % n = x + n - s - 1 := by
        rw [show x + n - (s + 1) = x + n - s - 1 by omega,
          Nat.mod_eq_of_lt (by omega)]
      have hr : (x + n - s) % n = x + n - s := Nat.mod_eq_of_lt (by omega)
      rw [hl, hr]

lemma dist_pos (n s x : ℕ) (hs : s < n) (hx : x < n) (hne : x ≠ s) :
    1 ≤ (x + n - s) % n := by
  by_cases hxs : s ≤ x
  · rw [show x + n - s = n + (x - s) by omega, Nat.add_mod_left,
      Nat.mod_eq_of_lt (by omega)]
    omega
  · rw [Nat.mod_eq_of_lt (by omega)]
    omega

lemma wedgeWrites_mem (n e : ℕ) (b g p : ℚ) :
    ∀ (fuel s count : ℕ) (pg : Bool) (k : ℕ), e < n → s < n → k < n →
      (k + n - s) % n < (e + n - s) % n → (e + n - s) % n ≤ fuel →
      k ∈ (wedgeWrites n e b g p fuel s count pg).map Prod.fst := by
  intro fuel
  induction fuel with
  | zero =>
    intro s count pg k he hs hk hlt hfuel
    omega
  | succ fuel ih =>
    intro s count pg k he hs hk hlt hfuel
    have hse : ¬(s = e) := by
      intro hcon
      subst hcon
      rw [show s + n - s = n by omega, Nat.mod_self] at hlt
      omega
    have hes : e ≠ s := fun hh => hse hh.symm
    rw [wedgeWrites, if_neg hse]
    dsimp only
    by_cases hks : k = s
    · subst hks
      split <;> simp
    · have hrec : ∀ (c : ℕ) (pg2 : Bool),
          k ∈ (wedgeWrites n e b g p fuel ((s + 1) % n) c pg2).map Prod.fst := by
        intro c pg2
        apply ih
        · exact he
        · exact Nat.mod_lt _ (by omega)
        · exact hk
        · rw [distStep n s k hs hk hks, distStep n s e hs he hes]
          have hkpos := dist_pos n s k hs hk hks
          omega
        · rw [distStep n s e hs he hes]
          omega
      split <;>
      · rw [List.map_cons]
        exact List.mem_cons_of_mem _ (hrec _ _)

lemma find_boundary :
    ∀ (l : List ℕ) (k : ℕ), l.Pairwise (· < ·) → k ∉ l →
      (∃ x ∈ l, x < k) → (∃ y ∈ l, k < y) →
      ∃ t, ∃ h1 : t + 1 < l.length,
        l.get ⟨t, by omega⟩ < k ∧ k < l.get ⟨t + 1, h1⟩ := by
  intro l
  induction l with
  | nil =>
    intro k _ _ hx _
    obtain ⟨x, hx1, _⟩ := hx
    exact absurd hx1 (List.not_mem_nil x)
  | cons a rest ih =>
    intro k hsort hnot hx hy
    have hak : a ≠ k := fun hh => hnot (hh ▸ List.mem_cons_self a rest)
    by_cases hka : k < a
    · exfalso
      obtain ⟨x, hx1, hx2⟩ := hx
      rcases List.mem_cons.mp hx1 with rfl | hx1
      · omega
      · have : a < x := (List.pairwise_cons.mp hsort).1 x hx1
        omega
    · have halt : a < k := by omega
      cases rest with
      | nil =>
        exfalso
        obtain ⟨y, hy1, hy2⟩ := hy
        rcases List.mem_cons.mp hy1 with rfl | hy1
        · omega
        · exact absurd hy1 (List.not_mem_nil y)
      | cons c rest2 =>
        by_cases hkc : k < c
        · exact ⟨0, by simp, halt, hkc⟩
        · have hck : c ≠ k := fun hh => hnot (by rw [hh]; simp)
          have hclt : c < k := by omega
          have hsort2 : (c :: rest2).Pairwise (· < ·) :=
            (List.pairwise_cons.mp hsort).2
          have hnot2 : k ∉ c :: rest2 := fun hh => hnot (List.mem_cons_of_mem a hh)
          have hy2 : ∃ y ∈ c :: rest2, k < y := by
            obtain ⟨y, hy1, hyk⟩ := hy
            rcases List.mem_cons.mp hy1 with rfl | hy1
            · omega
            · exact ⟨y, hy1, hyk⟩
          obtain ⟨t, h1, hb1, hb2⟩ := ih k hsort2 hnot2 ⟨c, by simp, hclt⟩ hy2
          refine ⟨t + 1, by simpa using h1, ?_, ?_⟩
          · simpa using hb1
          · simpa using hb2

lemma cover_arith (n b e k : ℕ) (hbn : b < n) (hen : e < n) (hkn : k < n)
    (hcase : (e ≤ b ∧ (k < e ∨ b < k)) ∨ (b < k ∧ k < e)) :
    (k + n - (b + 1) % n) % n < (e + n - (b + 1) % n) % n := by
  by_cases hbn1 : b + 1 = n
  · have hs0 : (b + 1) % n = 0 := by rw [hbn1, Nat.mod_self]
    rw [hs0, Nat.sub_zero, Nat.sub_zero, Nat.add_mod_right, Nat.add_mod_right,
      Nat.mod_eq_of_lt hkn, Nat.mod_eq_of_lt hen]
    omega
  · have hs1 : (b + 1) % n = b + 1 := Nat.mod_eq_of_lt (by omega)
    rw [hs1]
    have hDk : (k + n - (b + 1)) % n =
        if b + 1 ≤ k then k - b - 1 else k + n - b - 1 := by
      by_cases hh : b + 1 ≤ k
      · rw [if_pos hh, show k + n - (b + 1) = n + (k - b - 1) by omega,
          Nat.add_mod_left, Nat.mod_eq_of_lt (by omega)]
      · rw [if_neg hh, show k + n - (b + 1) = k + n - b - 1 by omega,
          Nat.mod_eq_of_lt (by omega)]
    have hDe : (e + n - (b + 1)) % n =
        if b + 1 ≤ e then e - b - 1 else e + n - b - 1 := by
      by_cases hh : b + 1 ≤ e
      · rw [if_pos hh, show e + n - (b + 1) = n + (e - b - 1) by omega,
          Nat.add_mod_left, Nat.mod_eq_of_lt (by omega)]
      · rw [if_neg hh, show e + n - (b + 1) = e + n - b - 1 by omega,
          Nat.mod_eq_of_lt (by omega)]
    rw [hDk, hDe]
    split_ifs with h1 h2 h2 <;> omega

lemma cover (n : ℕ) (idxs : List ℕ)
    (hne : idxs ≠ []) (hsort : idxs.Pairwise (· < ·))
    (hbnd : ∀ j ∈ idxs, j < n) (k : ℕ) (hk : k < n) (hnot : k ∉ idxs) :
    ∃ t, ∃ ht : t < idxs.length,
      (k + n - (idxs.get ⟨t, ht⟩ + 1) % n) % n <
        (idxs.get ⟨(t + 1) % idxs.length,
          Nat.mod_lt _ (Nat.zero_lt_of_lt ht)⟩ + n -
          (idxs.get ⟨t, ht⟩ + 1) % n) % n := by
  have hpos : 0 < idxs.length := List.length_pos.mpr hne
  have hlast : idxs.length - 1 < idxs.length := by omega
  have hget_mono : ∀ (i j : ℕ) (hi : i < idxs.length) (hj : j < idxs.length),
      i < j → idxs.get ⟨i, hi⟩ < idxs.get ⟨j, hj⟩ := by
    intro i j hi hj hij
    have := List.pairwise_iff_getElem.mp hsort i j hi hj hij
    simpa [List.get_eq_getElem] using this
  have hbnd' : ∀ (i : ℕ) (hi : i < idxs.length), idxs.get ⟨i, hi⟩ < n :=
    fun i hi => hbnd _ (List.get_mem idxs _ _)
  have hnotget : ∀ (i : ℕ) (hi : i < idxs.length), k ≠ idxs.get ⟨i, hi⟩ :=
    fun i hi hh => hnot (hh ▸ List.get_mem idxs _ _)
  have hfirst_le_last : idxs.get ⟨0, hpos⟩ ≤ idxs.get ⟨idxs.length - 1, hlast⟩ := by
    by_cases hone : idxs.length = 1
    · have hEq0 : (⟨0, hpos⟩ : Fin idxs.length) = ⟨idxs.length - 1, hlast⟩ :=
        Fin.ext (by omega)
      rw [hEq0]
    · exact le_of_lt (hget_mono 0 (idxs.length - 1) hpos hlast (by omega))
  by_cases hwrap : k < idxs.get ⟨0, hpos⟩ ∨ idxs.get ⟨idxs.length - 1, hlast⟩ < k
  · refine ⟨idxs.length - 1, hlast, ?_⟩
    have hmod0 : (idxs.length - 1 + 1) % idxs.length = 0 := by
      rw [show idxs.length - 1 + 1 = idxs.length by omega, Nat.mod_self]
    have hebound : idxs.get ⟨(idxs.length - 1 + 1) % idxs.length,
        Nat.mod_lt _ (Nat.zero_lt_of_lt hlast)⟩ = idxs.get ⟨0, hpos⟩ := by
      congr 1
      exact Fin.ext hmod0
    rw [hebound]
    apply cover_arith n _ _ k (hbnd' _ hlast) (hbnd' 0 hpos) hk
    exact Or.inl ⟨hfirst_le_last, hwrap⟩
  · push_neg at hwrap
    have hx : ∃ x ∈ idxs, x < k := by
      refine ⟨idxs.get ⟨0, hpos⟩, List.get_mem idxs _ _, ?_⟩
      have := hnotget 0 hpos
      omega
    have hy : ∃ y ∈ idxs, k < y := by
      refine ⟨idxs.get ⟨idxs.length - 1, hlast⟩, List.get_mem idxs _ _, ?_⟩
      have := hnotget (idxs.length - 1) hlast
      omega
    obtain ⟨t, h1, hb1, hb2⟩ := find_boundary idxs k hsort hnot hx hy
    have ht : t < idxs.length := by omega
    refine ⟨t, ht, ?_⟩
    have hmodt : (t + 1) % idxs.length = t + 1 := Nat.mod_eq_of_lt h1
    have hebound : idxs.get ⟨(t + 1) % idxs.length,
        Nat.mod_lt _ (Nat.zero_lt_of_lt ht)⟩ = idxs.get ⟨t + 1, h1⟩ := by
      congr 1
      exact Fin.ext hmodt
    rw [hebound]
    apply cover_arith n _ _ k (hbnd' t ht) (hbnd' (t + 1) h1) hk
    refine Or.inr ⟨?_, hb2⟩
    have hEq : idxs.get ⟨t, ht⟩ = idxs.get ⟨t, by omega⟩ := rfl
    rw [hEq]
    exact hb1

lemma wedgesWrites_mem (fas : List (ℚ × ℕ)) (n : ℕ)
    (hbnd : ∀ q ∈ fas, q.2 < n) :
    ∀ (fuel i : ℕ) (pa : Option ℚ) (t : ℕ) (ht : t < fas.length) (k : ℕ),
      i ≤ t → t < i + fuel → k < n →
      (k + n - ((fas.get ⟨t, ht⟩).2 + 1) % n) % n <
        ((fas.get ⟨(t + 1) % fas.length,
          Nat.mod_lt _ (Nat.zero_lt_of_lt ht)⟩).2 + n -
          ((fas.get ⟨t, ht⟩).2 + 1) % n) % n →
      k ∈ ((wedgesWrites fas n fuel i pa).1.map Prod.fst) := by
  intro fuel
  induction fuel with
  | zero =>
    intro i pa t ht k hit hlt hk hcond
    omega
  | succ fuel ih =>
    intro i pa t ht k hit hlt hk hcond
    have hi : i < fas.length := by omega
    rw [wedgesWrites, dif_pos hi]
    dsimp only
    rw [List.map_append, List.mem_append]
    by_cases hit2 : i = t
    · left
      subst hit2
      apply wedgeWrites_mem
      · exact hbnd _ (List.get_mem fas _ _)
      · exact Nat.mod_lt _ (by omega)
      · exact hk
      · exact hcond
      · exact le_of_lt (Nat.mod_lt _ (by omega))
    · right
      exact ih (i + 1) _ t ht k (by omega) (by omega) hk hcond

lemma levelWrites_cover (angles : List (Option ℚ)) (pa : Option ℚ) (k : ℕ)
    (hk : k < angles.length)
    (hnotfix : ∀ q ∈ collectFixed angles 0, q.2 ≠ k) :
    k ∈ (levelWrites angles pa).map Prod.fst := by
  have hn : 0 < angles.length := by omega
  rw [levelWrites, levelFas]
  by_cases hemp : (collectFixed angles 0).isEmpty
  · simp only [hemp, if_true, List.map_append, List.mem_append]
    by_cases hk0 : k = 0
    · left
      simp [hk0]
    · right
      have hn2 : 2 ≤ angles.length := by omega
      have hbnd1 : ∀ q ∈ [(firstAngleOf pa, 0)], q.2 < angles.length := by
        intro q hq
        rw [List.mem_singleton] at hq
        subst hq
        exact hn
      apply wedgesWrites_mem [(firstAngleOf pa, 0)] angles.length hbnd1 1 0 pa 0
        (by simp) k (le_refl 0) (by omega) hk
      simp only [List.get_singleton]
      rw [show ((0 : ℕ) + 1) % angles.length = 1 from Nat.mod_eq_of_lt (by omega)]
      rw [show k + angles.length - 1 = angles.length + (k - 1) by omega,
        Nat.add_mod_left, Nat.mod_eq_of_lt (by omega),
        show 0 + angles.length - 1 = angles.length - 1 by omega,
        Nat.mod_eq_of_lt (by omega)]
      omega
  · simp only [hemp, Bool.false_eq_true, if_false, List.nil_append]
    have hfne : collectFixed angles 0 ≠ [] := by
      intro hcon
      rw [hcon] at hemp
      exact hemp rfl
    have hsort := collectFixed_snd_sorted angles 0
    have hbndi : ∀ j ∈ (collectFixed angles 0).map Prod.snd, j < angles.length := by
      intro j hj
      obtain ⟨q, hq, rfl⟩ := List.mem_map.mp hj
      have := collectFixed_mem angles 0 q hq
      omega
    have hnoti : k ∉ (collectFixed angles 0).map Prod.snd := by
      intro hcon
      obtain ⟨q, hq, hq2⟩ := List.mem_map.mp hcon
      exact hnotfix q hq hq2
    have hmne : (collectFixed angles 0).map Prod.snd ≠ [] := by
        intro hcon
        exact hfne (List.map_eq_nil_iff.mp hcon)
    obtain ⟨t, ht, hcond⟩ := cover angles.length ((collectFixed angles 0).map Prod.snd)
        hmne hsort hbndi k hk hnoti
    rw [List.length_map] at ht
    apply wedgesWrites_mem (collectFixed angles 0) angles.length
        (by
          intro q hq
          have := collectFixed_mem angles 0 q hq
          omega)
        (collectFixed angles 0).length 0 pa t ht k (Nat.zero_le t) (by omega) hk
    have hgt : ∀ (j : ℕ) (hj : j < ((collectFixed angles 0).map Prod.snd).length),
        ((collectFixed angles 0).map Prod.snd).get ⟨j, hj⟩ =
          ((collectFixed angles 0).get ⟨j, by
            rw [List.length_map] at hj
            exact hj⟩).2 := by
      intro j hj
      simp [List.get_eq_getElem, List.getElem_map]
    rw [hgt t _, hgt ((t + 1) % ((collectFixed angles 0).map Prod.snd).length) _] at hcond
    simp only [List.length_map] at hcond
    exact hcond

end Menu

/-- Claim C10: an item whose angle property equals exactly 0 is treated by
the layout engine as carrying no fixed angle: its index is never collected
as a fixed anchor (hence never takes part in the strict-increase, range or
parent-collision validation), and the whole recursive layout computes
exactly the same result as if the item carried no angle property at all,
so its 0 value is redistributed and overwritten like that of an
unconstrained sibling. -/
theorem c10_zero_angle_unconstrained (items : List Item) (pa : Option ℚ)
    (k : ℕ) (it : Item) (hk : items[k]? = some it) (h0 : it.angle = some 0) :
    (∀ q ∈ Menu.collectFixed (items.map Item.angle) 0, q.2 ≠ k) ∧
    Menu.updateItemAngles items pa =
      Menu.updateItemAngles (items.set k { it with angle := none }) pa := by
  have hklen : k < items.length := by
    by_contra hcon
    rw [List.getElem?_eq_none (by omega)] at hk
    exact absurd hk (by simp)
  have hask : (items.map Item.angle)[k]? = some (some 0) := by
    rw [List.getElem?_map, hk]
    simp [h0]
  have hnotfix : ∀ q ∈ Menu.collectFixed (items.map Item.angle) 0, q.2 ≠ k := by
    intro q hq hcon
    obtain ⟨h1, h2, h3, h4⟩ := Menu.collectFixed_mem (items.map Item.angle) 0 q hq
    rw [Nat.sub_zero, hcon, hask] at h3
    simp only [Option.some_inj] at h3
    exact h4 h3.symm
  refine ⟨hnotfix, ?_⟩
  have hmapset : (items.set k { it with angle := none }).map Item.angle =
      (items.map Item.angle).set k none := by
    rw [List.map_set]
  have hcoll : Menu.collectFixed ((items.map Item.angle).set k none) 0 =
      Menu.collectFixed (items.map Item.angle) 0 :=
    Menu.collectFixed_set_none_of_zero _ k 0 hask
  have hlennz : ¬(items.length = 0) := by omega
  simp only [Menu.updateItemAngles]
  rw [if_neg hlennz, if_neg (show ¬((items.set k { it with angle := none }).length = 0) by
    rw [List.length_set]; exact hlennz)]
  rw [hmapset, Menu.assignLevelAngles_eq, Menu.assignLevelAngles_eq]
  have hguard : Menu.levelGuardOK ((items.map Item.angle).set k none) pa =
      Menu.levelGuardOK (items.map Item.angle) pa := by
    unfold Menu.levelGuardOK
    rw [hcoll]
  rw [hguard]
  by_cases hg : Menu.levelGuardOK (items.map Item.angle) pa = true
  · rw [if_pos hg, if_pos hg]
    have hwrites : Menu.levelWrites ((items.map Item.angle).set k none) pa =
        Menu.levelWrites (items.map Item.angle) pa :=
      Menu.levelWrites_length_eq _ _ pa hcoll (by simp)
    rw [hwrites]
    have hkmem : k ∈ (Menu.levelWrites (items.map Item.angle) pa).map Prod.fst :=
      Menu.levelWrites_cover (items.map Item.angle) pa k (by simpa using hklen) hnotfix
    have happly : Menu.applyWrites (Menu.levelWrites (items.map Item.angle) pa)
        (items.map Item.angle) =
        Menu.applyWrites (Menu.levelWrites (items.map Item.angle) pa)
          ((items.map Item.angle).set k none) := by
      apply Menu.applyWrites_congr_of_mem k _ _ _ hkmem (by simp)
      intro j hj
      rw [List.getElem?_set_ne (fun hh => hj hh.symm)]
    rw [← happly]
    have hrec : Menu.applyAndRecurse items
        (Menu.applyWrites (Menu.levelWrites (items.map Item.angle) pa)
          (items.map Item.angle)) =
        Menu.applyAndRecurse (items.set k { it with angle := none })
          (Menu.applyWrites (Menu.levelWrites (items.map Item.angle) pa)
            (items.map Item.angle)) := by
      apply Menu.applyAndRecurse_congr
      · simp
      · rw [Menu.applyWrites_length, List.length_map]
      · intro j
        by_cases hjk : j = k
        · subst hjk
          rw [hk, List.getElem?_set_self hklen]
          exact ⟨rfl, rfl⟩
        · rw [List.getElem?_set_ne (fun hh => hjk hh.symm)]
          exact ⟨rfl, rfl⟩
    dsimp only
    rw [hrec]
  · rw [if_neg hg, if_neg hg]

/-- Witness for C10: the first of three items carries angle 0 and the
result equals the layout of the same list with that angle removed. -/
theorem c10_witness :
    (∀ q ∈ Menu.collectFixed ([⟨none, some 0, []⟩, ⟨none, none, []⟩,
      ⟨none, none, []⟩].map Item.angle) 0, q.2 ≠ 0) ∧
    Menu.updateItemAngles
        [⟨none, some 0, []⟩, ⟨none, none, []⟩, ⟨none, none, []⟩] none =
      Menu.updateItemAngles ([⟨none, some 0, []⟩, ⟨none, none, []⟩,
        ⟨none, none, []⟩].set 0 { (⟨none, some 0, []⟩ : Item) with angle := none }) none :=
  c10_zero_angle_unconstrained _ none 0 ⟨none, some 0, []⟩ rfl rfl

end FlyPie
